import Mathlib

/-!
Shallow embedding of the `vas3kampctf25` telegram bot core: the Redis-backed
coordination layer (`src/telegram-bot/src/api.rs`) and the rate-limited
outbound message sender (`src/telegram-bot/src/sender.rs`).

The Redis store is modelled as an association list from keys to tagged stored
values.  A stored value is either a well-formed serialisation of one of the
record types the bot uses (`String`, `Task`, `Solve`, `Vas3kUser`) or
`malformed`, standing for bytes that fail `serde_json` deserialisation.  The
four record types have pairwise incompatible JSON shapes, so a typed read of a
value of the wrong tag fails, exactly as `serde_json::from_slice::<T>` does.

Rust strings are Lean `String`s; the handful of `str` operations the source
uses (`trim`, `to_lowercase`, prefix tests, splitting at ':') are defined here
over the underlying character list so that every definition evaluates inside
the kernel.  `to_lowercase` agrees with `Char.toLower` on the ASCII alphabet,
which is the alphabet of flags and keys in this bot.
-/

namespace VBot

/-- `str::trim` of Rust: strip leading and trailing whitespace. -/
def trimStr (s : String) : String :=
  ⟨((s.data.dropWhile Char.isWhitespace).reverse.dropWhile Char.isWhitespace).reverse⟩

/-- `String::to_lowercase` of Rust, restricted to its ASCII behaviour. -/
def lowerStr (s : String) : String := ⟨s.data.map Char.toLower⟩

/-- `p` is a prefix of `k` (the key-pattern test behind Redis `KEYS p*`). -/
def strStarts (p k : String) : Bool := p.data.isPrefixOf k.data

/-- The segment of `k` after the last ':'; all of `k` when there is no ':'.
This is Rust's `key.split(':').next_back()` on the bot's keys. -/
def lastSeg (k : String) : String := ⟨(k.data.reverse.takeWhile (fun c => !(c == ':'))).reverse⟩

/-- Drop the first `n` characters (models `strip_prefix` on a key already
known to carry the prefix of length `n`). -/
def dropChars (n : Nat) (s : String) : String := ⟨s.data.drop n⟩

/-- Digit-list parser used by `parseI64`. -/
def digitsVal : List Char → Option Nat
  | [] => none
  | cs => if cs.all (fun c => c.isDigit) then
      some (cs.foldl (fun a c => a * 10 + (c.toNat - 48)) 0)
    else none

/-- Rust `str::parse::<i64>`: optional sign, decimal digits, i64 range check. -/
def parseI64 (s : String) : Option Int :=
  match s.data with
  | '-' :: rest => (digitsVal rest).bind fun n =>
      if (n : Int) ≤ 2 ^ 63 then some (-(n : Int)) else none
  | '+' :: rest => (digitsVal rest).bind fun n =>
      if (n : Int) < 2 ^ 63 then some (n : Int) else none
  | cs => (digitsVal cs).bind fun n =>
      if (n : Int) < 2 ^ 63 then some (n : Int) else none

/-- `user_id as i64` for a `u64` value. -/
def toI64 (n : Nat) : Int :=
  if n % 2 ^ 64 < 2 ^ 63 then ((n % 2 ^ 64 : Nat) : Int)
  else ((n % 2 ^ 64 : Nat) : Int) - 2 ^ 64

/-- `telegram_id as u64` for an `i64` value. -/
def toU64 (i : Int) : Nat := (i % 2 ^ 64).toNat

/-- `FlagType` of api.rs: one accepted answer or a set of them. -/
inductive FlagType where
  | single (s : String)
  | multi (vs : List String)
deriving DecidableEq, Repr

/-- `Task` of api.rs.  `id` is `#[serde(skip)]`: it is never stored, and reads
recover it from the storage key. -/
structure Task where
  name : String
  flag : FlagType
  hint : String
  id : String
  hidden : Bool
deriving DecidableEq, Repr

/-- `Solve` of api.rs: a participant's solve ledger. -/
structure Solve where
  solves : List String
deriving DecidableEq, Repr

/-- `Vas3kUser` of api.rs, restricted to the fields the modelled operations
read.  `telegram_id` is `#[serde(skip)]` (defaults to 0 on deserialisation and
is then recovered from the storage key); the remaining profile fields are
opaque payload, represented by `full_name`. -/
structure Vas3kUser where
  telegram_id : Int
  full_name : String
deriving DecidableEq, Repr

/-- A value held by the store under some key. -/
inductive Raw where
  | str (s : String)
  | task (t : Task)
  | solve (v : Solve)
  | user (u : Vas3kUser)
  | malformed
deriving DecidableEq, Repr

/-- The Redis keyspace. -/
abbrev Store := List (String × Raw)

/-- Redis `GET`. -/
def getRaw (st : Store) (k : String) : Option Raw :=
  (st.find? (fun p => p.1 == k)).map (fun p => p.2)

/-- Redis `SET` (`put_into_cache`): overwrite in place, or append a new key. -/
def putRaw (st : Store) (k : String) (v : Raw) : Store :=
  if st.any (fun p => p.1 == k) then
    st.map (fun p => if p.1 == k then (k, v) else p)
  else st ++ [(k, v)]

/-- Redis `DEL` (`del_from_cache`). -/
def delRaw (st : Store) (k : String) : Store := st.filter (fun p => !(p.1 == k))

/-- `get_keys` of api.rs: Redis `KEYS pre*`, in store enumeration order. -/
def get_keys (st : Store) (pre : String) : List String :=
  (st.map (fun p => p.1)).filter (fun k => strStarts pre k)

/-- `collect_from_cache::<String>` (its `FillId` is a no-op). -/
def collect_string (st : Store) (k : String) : Option String :=
  match getRaw st k with
  | some (.str s) => some s
  | _ => none

/-- `collect_from_cache::<Task>`: decode, then `FillId` recovers `id` from the
segment of the key after the last ':'. -/
def collect_task (st : Store) (k : String) : Option Task :=
  match getRaw st k with
  | some (.task t) => some { t with id := lastSeg k }
  | _ => none

/-- `collect_from_cache::<Solve>` (its `FillId` is a no-op). -/
def collect_solve (st : Store) (k : String) : Option Solve :=
  match getRaw st k with
  | some (.solve v) => some v
  | _ => none

/-- `collect_from_cache::<Vas3kUser>`: `telegram_id` is skipped by serde (so
it deserialises to 0) and `FillId` sets it from the key when the segment after
the last ':' parses as an `i64`. -/
def collect_user (st : Store) (k : String) : Option Vas3kUser :=
  match getRaw st k with
  | some (.user u) => some { u with telegram_id := (parseI64 (lastSeg k)).getD 0 }
  | _ => none

/-- The configuration fields the modelled operations read
(`Config` in main.rs). -/
structure Config where
  test_group : List Int
  admin_group : List Int
deriving DecidableEq, Repr

/-- `is_test_user` of api.rs. -/
def is_test_user (cfg : Config) (user_id : Nat) : Bool :=
  cfg.test_group.any (fun x => x == toI64 user_id)

/-- `is_admin` of api.rs. -/
def is_admin (cfg : Config) (user_id : Nat) : Bool :=
  cfg.admin_group.any (fun x => x == toI64 user_id)

/-- `SubmissionResult` of api.rs. -/
inductive SubmissionResult where
  | notAFlag
  | alreadySolved
  | solved (name : String)
deriving DecidableEq, Repr

/-- The ledger key `format!("solve:{}", user_id)`. -/
def solveKey (user_id : Nat) : String := "solve:" ++ toString user_id

/-- Flag comparison of `try_submit_flag`: a `Single` flag must equal the
normalised text, a `Multi` flag matches when any member equals it. -/
def flagHit (f : FlagType) (t : String) : Bool :=
  match f with
  | .single s => s == t
  | .multi vs => vs.any (fun s => s == t)

/-- `trim().to_lowercase()` applied by `try_submit_flag` to the submission. -/
def normalizeFlag (s : String) : String := lowerStr (trimStr s)

/-- `is_solved` of api.rs. -/
def is_solved (st : Store) (user_id : Nat) (task_key : String) : Bool :=
  match collect_solve st (solveKey user_id) with
  | some sv => sv.solves.any (fun s => s == task_key)
  | none => false

/-- `set_solved` of api.rs: read-modify-write of the ledger, pushing the task
key (a fresh one-element ledger when the key is absent or malformed). -/
def set_solved (st : Store) (user_id : Nat) (task_key : String) : Store :=
  let sv := match collect_solve st (solveKey user_id) with
    | some sv => { sv with solves := sv.solves ++ [task_key] }
    | none => ⟨[task_key]⟩
  putRaw st (solveKey user_id) (.solve sv)

/-- The loop body of `try_submit_flag` over the `task:*` keys.  On the first
key holding a well-formed task whose flag matches, the critical section runs:
re-check the ledger, then either report `alreadySolved` or append and report
`solved`.  Keys with malformed values and non-matching tasks are skipped.
The hidden flag is never consulted. -/
def submitGo (user_id : Nat) (tf : String) : Store → List String → Store × SubmissionResult
  | st, [] => (st, .notAFlag)
  | st, k :: rest =>
    match collect_task st k with
    | some task =>
      if flagHit task.flag tf then
        if is_solved st user_id k then (st, .alreadySolved)
        else (set_solved st user_id k, .solved task.name)
      else submitGo user_id tf st rest
    | none => submitGo user_id tf st rest

/-- `try_submit_flag` of api.rs, with the store threaded explicitly.  The
critical section (ledger re-check plus conditional append) is atomic here;
this is justified by the process-wide `Mutex` held around it in the source,
which serialises it against every other ledger or task mutation.  The
fine-grained interleaving of that critical section is analysed separately by
the lock machine below. -/
def try_submit_flag (st : Store) (user_id : Nat) (text : String) : Store × SubmissionResult :=
  submitGo user_id (normalizeFlag text) st (get_keys st "task:")

/-- Score of one `solve:*` key as `get_score` computes it:
ledger size, or 0 when the value is absent or malformed. -/
def scoreOfKey (st : Store) (k : String) : Nat :=
  match collect_solve st k with
  | some sv => sv.solves.length
  | none => 0

/-- The sentinel rank `u64::MAX` returned for test/admin participants. -/
def U64MAX : Nat := 2 ^ 64 - 1

/-- The comparator `|x, y| y.1.cmp(&x.1)` of `get_score`/`get_scoreboard`:
descending by score.  Rust's `sort_by` is stable, as is `insertionSort`. -/
def scoreDesc (x y : String × Nat) : Prop := y.2 ≤ x.2

instance : DecidableRel scoreDesc := fun x y => Nat.decLe y.2 x.2

/-- The closure inside `get_score`: first index (1-based) at which the user's
ledger key occurs in the sorted data, together with the score stored there. -/
def placeIn (user_key : String) : Nat → List (String × Nat) → Option (Nat × Nat)
  | _, [] => none
  | i, (k, sc) :: rest => if k == user_key then some (i + 1, sc) else placeIn user_key (i + 1) rest

/-- The `data` vector of `get_score`: every `solve:*` key with its score, in
store enumeration order. -/
def scoreData (st : Store) : List (String × Nat) :=
  (get_keys st "solve:").map (fun k => (k, scoreOfKey st k))

/-- `data.sort_by(|x, y| y.1.cmp(&x.1))` of `get_score`: the stable descending
sort of `scoreData`. -/
def sortedScores (st : Store) : List (String × Nat) :=
  (scoreData st).insertionSort scoreDesc

/-- `get_score` of api.rs: enumerate every ledger, sort descending by score
(stably), locate the caller, and replace the rank by `u64::MAX` for test and
admin participants. -/
def get_score (cfg : Config) (st : Store) (user_id : Nat) : Nat × Nat :=
  let user_key := solveKey user_id
  let hidden := is_test_user cfg user_id || is_admin cfg user_id
  let pr := (placeIn user_key 0 (sortedScores st)).getD ((scoreData st).length + 1, 0)
  if hidden then (U64MAX, pr.2) else pr

/-- The critical section of `create_task`: scan candidate identifiers in
generation order until one has no well-formed task stored under
`"task:" ++ candidate`, then reserve it.  Returns `none` when every candidate
collides (the source loops forever in that case; the candidate list is the
stream of `uuid` prefixes it would draw). -/
def create_task_crit (st : Store) (t : Task) (cands : List String) : Store × Option String :=
  match cands.find? (fun c => (collect_task st ("task:" ++ c)).isNone) with
  | some c => (putRaw st ("task:" ++ c) (.task t), some ("task:" ++ c))
  | none => (st, none)

/-- A batch of concurrent `create_task` calls.  The process-wide `Mutex` is
held across each call's whole generate-check-reserve loop, and every other
writer of `task:*` keys (`edit_task`, `delete_task`) takes the same lock, so
the concurrent calls execute as some serial order of their critical
sections — which is what this function folds over. -/
def run_creates : Store → List (Task × List String) → Store × List (Option String)
  | st, [] => (st, [])
  | st, (t, cs) :: rest =>
    let p := create_task_crit st t cs
    let q := run_creates p.1 rest
    (q.1, p.2 :: q.2)

/-- `append_to_contact` of api.rs: push `'\n'` then the text onto an existing
buffer, or start the buffer at the bare text. -/
def append_to_contact (st : Store) (user_id : Nat) (text : String) : Store :=
  let key := "contact:" ++ toString user_id
  let message := match collect_string st key with
    | some old => old ++ "\n" ++ text
    | none => text
  putRaw st key (.str message)

/-- `retrieve_and_erase_contact` of api.rs: read the buffer (empty string when
absent or malformed), then overwrite the key with the empty string. -/
def retrieve_and_erase_contact (st : Store) (user_id : Nat) : Store × String :=
  let key := "contact:" ++ toString user_id
  let message := (collect_string st key).getD ""
  (putRaw st key (.str ""), message)

/-- The per-user body of `get_scoreboard`: the profile under a `user:*` key
paired with its displayed score — 0 for test-group members, the ledger size
otherwise. -/
def scoreboardEntry (cfg : Config) (st : Store) (k : String) (u : Vas3kUser) : Vas3kUser × Nat :=
  let solv_key := "solve:" ++ dropChars 5 k
  let score := scoreOfKey st solv_key
  if is_test_user cfg (toU64 u.telegram_id) then (u, 0) else (u, score)

/-- The comparator of `get_scoreboard`: descending by displayed score. -/
def boardDesc (x y : Vas3kUser × Nat) : Prop := y.2 ≤ x.2

instance : DecidableRel boardDesc := fun x y => Nat.decLe y.2 x.2

/-- `get_scoreboard` of api.rs: every well-formed profile under a `user:*`
key, paired with its displayed score, sorted descending by score (stably). -/
def get_scoreboard (cfg : Config) (st : Store) : List (Vas3kUser × Nat) :=
  let entries := (get_keys st "user:").filterMap (fun k =>
    match collect_user st k with
    | some u => some (scoreboardEntry cfg st k u)
    | none => none)
  entries.insertionSort boardDesc

/-!
## The submission lock machine

`try_submit_flag` resolves a flag to a task key outside the lock, then runs
`mutex.lock(); is_solved; [set_solved]; unlock`.  Each arrow below is one
awaited store round trip performed while holding the lock; between round trips
the cooperative scheduler may run any other submission task, but ledgers are
written only inside this same lock, so `is_solved` and the read-modify-write
of `set_solved` are single steps.  The machine interleaves `n` submissions of
the same resolved task key by the same participant under an explicit lock and
makes no atomicity assumption beyond that.
-/

/-- Program counter of one in-flight submission's critical section. -/
inductive SPhase where
  | ready
  | locked
  | checked (b : Bool)
  | done (r : SubmissionResult)
deriving DecidableEq, Repr

/-- Shared state: the store, the lock owner, and each submission's phase. -/
structure SubSt where
  store : Store
  lockBy : Option Nat
  threads : List SPhase
deriving DecidableEq, Repr

/-- One scheduler step of the lock machine: run submission `i` for one store
round trip.  `ready → locked` acquires the free lock; `locked → checked`
evaluates `is_solved`; `checked b → done _` either just releases (already
solved) or performs `set_solved` and releases. -/
def subStep (user_id : Nat) (tk : String) (tn : String) (s : SubSt) (i : Nat) : SubSt :=
  match s.threads.get? i with
  | none => s
  | some .ready =>
    match s.lockBy with
    | none => { s with lockBy := some i, threads := s.threads.set i .locked }
    | some _ => s
  | some .locked =>
    { s with threads := s.threads.set i (.checked (is_solved s.store user_id tk)) }
  | some (.checked true) =>
    { s with lockBy := none, threads := s.threads.set i (.done .alreadySolved) }
  | some (.checked false) =>
    { s with store := set_solved s.store user_id tk, lockBy := none,
             threads := s.threads.set i (.done (.solved tn)) }
  | some (.done _) => s

/-- Run the lock machine under a schedule (a list of thread indices). -/
def runSub (user_id : Nat) (tk tn : String) (s : SubSt) (sched : List Nat) : SubSt :=
  sched.foldl (subStep user_id tk tn) s

/-- Initial state: `n` submissions of the same resolved task, lock free. -/
def subInit (st : Store) (n : Nat) : SubSt := ⟨st, none, List.replicate n .ready⟩

/-- Number of occurrences of `task_key` in the participant's stored ledger. -/
def countSolves (st : Store) (user_id : Nat) (task_key : String) : Nat :=
  match collect_solve st (solveKey user_id) with
  | some sv => sv.solves.count task_key
  | none => 0

/-!
## The sender machine

`MessageSender::start` of sender.rs, run — as main.rs does — on a
single-threaded (`new_current_thread`) tokio runtime, so control changes hands
only at `.await` points.  Consequently the successful quota probe
(`load`/`fetch_add`), the per-chat spacing check and the start of
`send_message` form one uninterruptible stretch: they are one machine step.
The replenisher task, producers' enqueues, the 100 ms quota-poll sleep, the
push-back re-enqueue, the completion of the transport call and plain passage
of time are the remaining steps, interleaved arbitrarily by a command list.
Time is in milliseconds.  `mid` is a ghost identity tag on messages; `acqs`
and `sends` are ghost counters of quota units consumed and transport
invocations started since the last replenishment; `enqLog` and `delivLog` are
ghost logs of enqueued messages and completed deliveries.
-/

/-- An outbound message: destination chat and a ghost identity tag. -/
structure Msg where
  dest : Int
  mid : Nat
deriving DecidableEq, Repr

/-- Consumer position: waiting on `recv`, inside the quota poll loop, pushing
a not-yet-due message back, or awaiting the transport result (with the time
the invocation started). -/
inductive CPhase where
  | idle
  | quota (m : Msg)
  | deferring (m : Msg)
  | inflight (m : Msg) (s : Nat)
deriving DecidableEq, Repr

/-- State of the sender loop plus ghost instrumentation. -/
structure SendSt where
  time : Nat
  counter : Nat
  lastReset : Nat
  timeouts : List (Int × Nat)
  queue : List Msg
  phase : CPhase
  enqLog : List Msg
  delivLog : List (Msg × Nat)
  acqs : Nat
  sends : Nat
deriving DecidableEq, Repr

/-- `tokio::sync::mpsc::channel(1024)` capacity. -/
def chanCap : Nat := 1024

/-- `LIMIT_RATE_PER_ALL`. -/
def RATE_ALL : Nat := 30

/-- `LIMIT_RATE_PER_CHAT` in milliseconds. -/
def RATE_CHAT : Nat := 1000

/-- `timeouts.get(&dest)` on the assoc-list model of the `HashMap`. -/
def lookupT (ts : List (Int × Nat)) (d : Int) : Option Nat :=
  (ts.find? (fun p => p.1 == d)).map (fun p => p.2)

/-- `timeouts.insert(dest, now)`. -/
def insertT (ts : List (Int × Nat)) (d : Int) (t : Nat) : List (Int × Nat) :=
  if ts.any (fun p => p.1 == d) then ts.map (fun p => if p.1 == d then (d, t) else p)
  else ts ++ [(d, t)]

/-- Scheduler commands for the sender machine. -/
inductive SCmd where
  | enq (m : Msg)
  | recvq
  | poll
  | acquire
  | reenq
  | finishOk
  | finishFail
  | reset
  | tick (n : Nat)
deriving DecidableEq, Repr

/-- One step of the sender machine.  A command whose guard fails leaves the
state unchanged (the corresponding task simply was not runnable). -/
def sendStep (s : SendSt) : SCmd → SendSt
  | .enq m =>
    if s.queue.length < chanCap then
      { s with queue := s.queue ++ [m], enqLog := s.enqLog ++ [m] }
    else s
  | .recvq =>
    match s.phase, s.queue with
    | .idle, m :: rest => { s with phase := .quota m, queue := rest }
    | _, _ => s
  | .poll =>
    match s.phase with
    | .quota _ => if s.counter = 0 then { s with time := s.time + 100 } else s
    | _ => s
  | .acquire =>
    match s.phase with
    | .quota m =>
      if s.counter = 0 then s
      else
        let s' := { s with counter := s.counter - 1, acqs := s.acqs + 1 }
        match lookupT s.timeouts m.dest with
        | some t =>
          if s.time < t + RATE_CHAT then { s' with phase := .deferring m }
          else { s' with phase := .inflight m s.time, sends := s'.sends + 1 }
        | none => { s' with phase := .inflight m s.time, sends := s'.sends + 1 }
    | _ => s
  | .reenq =>
    match s.phase with
    | .deferring m =>
      if s.queue.length < chanCap then { s with queue := s.queue ++ [m], phase := .idle }
      else s
    | _ => s
  | .finishOk =>
    match s.phase with
    | .inflight m _ =>
      { s with phase := .idle, timeouts := insertT s.timeouts m.dest s.time,
               delivLog := s.delivLog ++ [(m, s.time)] }
    | _ => s
  | .finishFail =>
    match s.phase with
    | .inflight m _ =>
      if s.queue.length < chanCap then { s with phase := .idle, queue := s.queue ++ [m] }
      else s
    | _ => s
  | .reset =>
    if s.lastReset + 1000 ≤ s.time then
      { s with counter := RATE_ALL, lastReset := s.time, acqs := 0, sends := 0 }
    else s
  | .tick n => { s with time := s.time + n }

/-- Initial sender state: counter full, everything else empty. -/
def sendInit : SendSt := ⟨0, RATE_ALL, 0, [], [], .idle, [], [], 0, 0⟩

/-- Run the sender machine under a command list. -/
def runSend (cmds : List SCmd) : SendSt := cmds.foldl sendStep sendInit

/-- Whether the consumer currently holds message `m`. -/
def phaseHold (ph : CPhase) (m : Msg) : Nat :=
  match ph with
  | .idle => 0
  | .quota m' => if m' = m then 1 else 0
  | .deferring m' => if m' = m then 1 else 0
  | .inflight m' _ => if m' = m then 1 else 0

/-- Net count of message `m` still owned by the delivery pipeline: in the
queue or held by the consumer. -/
def ownedCount (s : SendSt) (m : Msg) : Nat :=
  s.queue.count m + phaseHold s.phase m

/-- Completed deliveries of message `m`. -/
def deliveredCount (s : SendSt) (m : Msg) : Nat := (s.delivLog.map (fun p => p.1)).count m

/-!
## Association-list lemmas

`putRaw`/`getRaw` and `insertT`/`lookupT` share the replace-or-append shape;
these lemmas are stated over an arbitrary key/value pair type.
-/

section AssocLemmas

variable {κ α : Type} [BEq κ] [LawfulBEq κ]

theorem find?_replace_ne (st : List (κ × α)) (k k' : κ) (v : α) (hne : k' ≠ k) :
    (st.map (fun p => if p.1 == k then (k, v) else p)).find? (fun p => p.1 == k') =
      st.find? (fun p => p.1 == k') := by
  induction st with
  | nil => rfl
  | cons p rest ih =>
    by_cases hp : (p.1 == k) = true
    · have hpk : p.1 = k := by simpa using hp
      have h1 : (k == k') = false := by
        simp only [beq_eq_false_iff_ne]
        exact fun e => hne e.symm
      have h2 : (p.1 == k') = false := by rw [hpk]; exact h1
      simp only [List.map_cons, if_pos hp, List.find?, h1, h2, ih]
    · simp only [List.map_cons, if_neg hp]
      by_cases hq : (p.1 == k') = true
      · simp only [List.find?, hq]
      · have hq' : (p.1 == k') = false := by simpa using hq
        simp only [List.find?, hq', ih]

theorem find?_replace_self (st : List (κ × α)) (k : κ) (v : α)
    (h : st.any (fun p => p.1 == k) = true) :
    (st.map (fun p => if p.1 == k then (k, v) else p)).find? (fun p => p.1 == k) =
      some (k, v) := by
  induction st with
  | nil => simp at h
  | cons p rest ih =>
    by_cases hp : (p.1 == k) = true
    · simp only [List.map_cons, if_pos hp, List.find?, beq_self_eq_true]
    · simp only [List.any_cons, hp, Bool.false_or] at h
      have hp' : (p.1 == k) = false := by simpa using hp
      simp only [List.map_cons, if_neg hp, List.find?, hp', ih h]
      simp [hp']

end AssocLemmas

theorem getRaw_putRaw_self (st : Store) (k : String) (v : Raw) :
    getRaw (putRaw st k v) k = some v := by
  unfold getRaw putRaw
  by_cases h : st.any (fun p => p.1 == k) = true
  · rw [if_pos h, find?_replace_self st k v h]
    rfl
  · rw [if_neg h, List.find?_append]
    have hn : st.find? (fun p => p.1 == k) = none := by
      rw [List.find?_eq_none]
      intro x hx hc
      exact h (List.any_eq_true.mpr ⟨x, hx, hc⟩)
    rw [hn]
    simp [List.find?]

theorem getRaw_putRaw_ne (st : Store) (k k' : String) (v : Raw) (hne : k' ≠ k) :
    getRaw (putRaw st k v) k' = getRaw st k' := by
  unfold getRaw putRaw
  by_cases h : st.any (fun p => p.1 == k) = true
  · rw [if_pos h, find?_replace_ne st k k' v hne]
  · rw [if_neg h, List.find?_append]
    have h1 : (k == k') = false := by
      simp only [beq_eq_false_iff_ne]
      exact fun e => hne e.symm
    have hs : ([(k, v)].find? (fun p => p.1 == k')) = none := by
      simp [List.find?, h1]
    rw [hs]
    cases hf : st.find? (fun p => p.1 == k') <;> simp

theorem lookupT_insertT_self (ts : List (Int × Nat)) (d : Int) (t : Nat) :
    lookupT (insertT ts d t) d = some t := by
  unfold lookupT insertT
  by_cases h : ts.any (fun p => p.1 == d) = true
  · rw [if_pos h, find?_replace_self ts d t h]
    rfl
  · rw [if_neg h, List.find?_append]
    have hn : ts.find? (fun p => p.1 == d) = none := by
      rw [List.find?_eq_none]
      intro x hx hc
      exact h (List.any_eq_true.mpr ⟨x, hx, hc⟩)
    rw [hn]
    simp [List.find?]

theorem lookupT_insertT_ne (ts : List (Int × Nat)) (d d' : Int) (t : Nat) (hne : d' ≠ d) :
    lookupT (insertT ts d t) d' = lookupT ts d' := by
  unfold lookupT insertT
  by_cases h : ts.any (fun p => p.1 == d) = true
  · rw [if_pos h, find?_replace_ne ts d d' t hne]
  · rw [if_neg h, List.find?_append]
    have h1 : (d == d') = false := by
      simp only [beq_eq_false_iff_ne]
      exact fun e => hne e.symm
    have hs : ([(d, t)].find? (fun p => p.1 == d')) = none := by
      simp [List.find?, h1]
    rw [hs]
    cases hf : ts.find? (fun p => p.1 == d') <;> simp

/-!
## Ledger lemmas
-/

theorem collect_solve_set_solved (st : Store) (uid : Nat) (tk : String) :
    collect_solve (set_solved st uid tk) (solveKey uid) =
      some (match collect_solve st (solveKey uid) with
            | some sv => { sv with solves := sv.solves ++ [tk] }
            | none => ⟨[tk]⟩) := by
  unfold set_solved collect_solve
  rw [getRaw_putRaw_self]

theorem getRaw_set_solved_ne (st : Store) (uid : Nat) (tk k : String)
    (hne : k ≠ solveKey uid) :
    getRaw (set_solved st uid tk) k = getRaw st k := by
  unfold set_solved
  exact getRaw_putRaw_ne st (solveKey uid) k _ hne

theorem countSolves_set_solved (st : Store) (uid : Nat) (tk : String) :
    countSolves (set_solved st uid tk) uid tk = countSolves st uid tk + 1 := by
  unfold countSolves
  rw [collect_solve_set_solved]
  cases h : collect_solve st (solveKey uid) with
  | none => simp
  | some sv => simp [List.count_append]

theorem is_solved_iff (st : Store) (uid : Nat) (tk : String) :
    is_solved st uid tk = true ↔ 1 ≤ countSolves st uid tk := by
  unfold is_solved countSolves
  cases h : collect_solve st (solveKey uid) with
  | none => simp
  | some sv =>
    simp only [List.any_eq_true, beq_iff_eq, List.one_le_count_iff]
    constructor
    · rintro ⟨x, hx, rfl⟩
      exact hx
    · intro hm
      exact ⟨tk, hm, rfl⟩

theorem is_solved_false_iff (st : Store) (uid : Nat) (tk : String) :
    is_solved st uid tk = false ↔ countSolves st uid tk = 0 := by
  constructor
  · intro h
    by_contra hc
    have h1 : 1 ≤ countSolves st uid tk := Nat.one_le_iff_ne_zero.mpr hc
    rw [← is_solved_iff] at h1
    rw [h] at h1
    exact Bool.false_ne_true h1
  · intro h
    by_contra hc
    have h1 : is_solved st uid tk = true := by
      cases hb : is_solved st uid tk with
      | true => rfl
      | false => exact absurd hb hc
    rw [is_solved_iff, h] at h1
    omega


def flagSet (f : FlagType) : List String :=
  match f with
  | .single s => [s]
  | .multi vs => vs

theorem flagHit_iff (f : FlagType) (t : String) : flagHit f t = true ↔ t ∈ flagSet f := by
  cases f with
  | single s =>
    simp only [flagHit, flagSet, beq_iff_eq, List.mem_singleton]
    exact ⟨fun h => h.symm, fun h => h.symm⟩
  | multi vs =>
    simp only [flagHit, flagSet, List.any_eq_true, beq_iff_eq]
    constructor
    · rintro ⟨x, hx, rfl⟩
      exact hx
    · intro hm
      exact ⟨t, hm, rfl⟩

def matchesAt (st : Store) (tf : String) (k : String) : Bool :=
  match collect_task st k with
  | some t => flagHit t.flag tf
  | none => false

def firstMatch (st : Store) (tf : String) : Option String :=
  (get_keys st "task:").find? (matchesAt st tf)

theorem submitGo_none (uid : Nat) (tf : String) (st : Store) (ks : List String)
    (h : ks.find? (matchesAt st tf) = none) :
    submitGo uid tf st ks = (st, .notAFlag) := by
  induction ks with
  | nil => rfl
  | cons k rest ih =>
    rw [List.find?_eq_none] at h
    have hk : matchesAt st tf k = false := by
      have := h k (by simp)
      simpa using this
    have hr : rest.find? (matchesAt st tf) = none := by
      rw [List.find?_eq_none]
      intro x hx
      exact h x (by simp [hx])
    unfold submitGo
    unfold matchesAt at hk
    cases hc : collect_task st k with
    | none => simp only [hc]; exact ih hr
    | some t =>
      rw [hc] at hk
      simp only [hc]
      rw [if_neg (by simp [show flagHit t.flag tf = false from hk])]
      exact ih hr

theorem submitGo_found (uid : Nat) (tf : String) (st : Store) (ks : List String) (k : String)
    (h : ks.find? (matchesAt st tf) = some k) :
    ∃ t, collect_task st k = some t ∧ flagHit t.flag tf = true ∧
      submitGo uid tf st ks =
        (if is_solved st uid k then (st, .alreadySolved)
         else (set_solved st uid k, .solved t.name)) := by
  induction ks with
  | nil => simp [List.find?] at h
  | cons k' rest ih =>
    by_cases hk : matchesAt st tf k' = true
    · rw [List.find?_cons_of_pos _ hk] at h
      have hke : k = k' := by injection h with h2; exact h2.symm
      subst hke
      unfold matchesAt at hk
      cases hc : collect_task st k with
      | none => rw [hc] at hk; exact absurd hk (by simp)
      | some t =>
        rw [hc] at hk
        refine ⟨t, rfl, hk, ?_⟩
        unfold submitGo
        simp only [hc]
        rw [if_pos hk]
    · have hk' : matchesAt st tf k' = false := by simpa using hk
      rw [List.find?_cons_of_neg _ hk] at h
      obtain ⟨t, ht, hf, he⟩ := ih h
      refine ⟨t, ht, hf, ?_⟩
      unfold submitGo
      unfold matchesAt at hk'
      cases hc : collect_task st k' with
      | none => simp only [hc]; exact he
      | some t' =>
        rw [hc] at hk'
        simp only [hc]
        rw [if_neg (by simp [show flagHit t'.flag tf = false from hk'])]
        exact he


/-- A concrete hidden task accepting the flag `ctf{flag}`, and a store holding
only it, used to witness the submission claims. -/
def sampleTask : Task := ⟨"Alpha", .single "ctf\x7bflag\x7d", "hint", "", true⟩

def sampleStore : Store := [("task:ab", .task sampleTask)]

theorem try_submit_notAFlag_iff (st : Store) (uid : Nat) (text : String) :
    (try_submit_flag st uid text).2 ≠ .notAFlag ↔
      ∃ k ∈ get_keys st "task:", ∃ t, collect_task st k = some t ∧
        normalizeFlag text ∈ flagSet t.flag := by
  unfold try_submit_flag
  constructor
  · intro hne
    cases hf : (get_keys st "task:").find? (matchesAt st (normalizeFlag text)) with
    | none =>
      rw [submitGo_none uid _ st _ hf] at hne
      exact absurd rfl hne
    | some k =>
      obtain ⟨t, ht, hflag, _⟩ := submitGo_found uid (normalizeFlag text) st _ k hf
      exact ⟨k, List.mem_of_find?_eq_some hf, t, ht, (flagHit_iff _ _).mp hflag⟩
  · rintro ⟨k, hk, t, ht, hmem⟩
    cases hf : (get_keys st "task:").find? (matchesAt st (normalizeFlag text)) with
    | none =>
      rw [List.find?_eq_none] at hf
      have : matchesAt st (normalizeFlag text) k = true := by
        unfold matchesAt
        rw [ht]
        exact (flagHit_iff _ _).mpr hmem
      exact absurd this (hf k hk)
    | some k0 =>
      obtain ⟨t0, _, _, he⟩ := submitGo_found uid (normalizeFlag text) st _ k0 hf
      rw [he]
      by_cases hs : is_solved st uid k0 = true
      · rw [if_pos hs]; simp
      · rw [if_neg hs]; simp

theorem try_submit_first_match (st : Store) (uid : Nat) (text : String) (k : String) (t : Task)
    (hf : firstMatch st (normalizeFlag text) = some k)
    (ht : collect_task st k = some t) :
    (try_submit_flag st uid text).2 =
      (if is_solved st uid k then SubmissionResult.alreadySolved
       else .solved t.name) := by
  unfold firstMatch at hf
  obtain ⟨t0, ht0, _, he⟩ := submitGo_found uid (normalizeFlag text) st _ k hf
  rw [ht0] at ht
  injection ht with ht
  subst ht
  unfold try_submit_flag
  rw [he]
  by_cases hs : is_solved st uid k = true
  · rw [if_pos hs, if_pos hs]
  · rw [if_neg hs, if_neg hs]

/-- C3: submission trims and lowercases the text, scans the full directory
(hidden tasks included — the sample task is hidden), accepts exactly when the
normalised text is in some stored task's accepted-answer set, resolves the
first matching task, and distinguishes solved/already-solved by the ledger. -/
theorem C3_submit_normalise_and_match :
    (∀ st uid text, (try_submit_flag st uid text).2 ≠ .notAFlag ↔
      ∃ k ∈ get_keys st "task:", ∃ t, collect_task st k = some t ∧
        normalizeFlag text ∈ flagSet t.flag) ∧
    (∀ st uid text k t, firstMatch st (normalizeFlag text) = some k →
      collect_task st k = some t →
      (try_submit_flag st uid text).2 =
        (if is_solved st uid k then SubmissionResult.alreadySolved else .solved t.name)) ∧
    normalizeFlag "  CTF\x7bFlag\x7d  " = "ctf\x7bflag\x7d" ∧
    (try_submit_flag sampleStore 5 "  CTF\x7bFlag\x7d  ").2 = .solved "Alpha" := by
  refine ⟨try_submit_notAFlag_iff, try_submit_first_match, by decide, by decide⟩

/-- Witness for C3: its hypotheses hold at the sample store. -/
theorem C3_submit_normalise_and_match_witness :
    (try_submit_flag sampleStore 5 "  CTF\x7bFlag\x7d  ").2 =
      (if is_solved sampleStore 5 "task:ab" then SubmissionResult.alreadySolved
       else .solved "Alpha") :=
  C3_submit_normalise_and_match.2.1 sampleStore 5 "  CTF\x7bFlag\x7d  " "task:ab"
    { sampleTask with id := "ab" } (by decide) (by decide)

/-- C10: submission writes nothing but the submitting participant's own
ledger key, and leaves the store untouched unless it returns `solved`. -/
theorem C10_submit_frame :
    ∀ st uid text,
      (((try_submit_flag st uid text).2 = .notAFlag ∨
        (try_submit_flag st uid text).2 = .alreadySolved) →
          (try_submit_flag st uid text).1 = st) ∧
      (∀ k, k ≠ solveKey uid →
        getRaw (try_submit_flag st uid text).1 k = getRaw st k) := by
  intro st uid text
  unfold try_submit_flag
  cases hf : (get_keys st "task:").find? (matchesAt st (normalizeFlag text)) with
  | none =>
    rw [submitGo_none uid _ st _ hf]
    exact ⟨fun _ => rfl, fun k _ => rfl⟩
  | some k0 =>
    obtain ⟨t, _, _, he⟩ := submitGo_found uid (normalizeFlag text) st _ k0 hf
    rw [he]
    by_cases hs : is_solved st uid k0 = true
    · rw [if_pos hs]
      exact ⟨fun _ => rfl, fun k _ => rfl⟩
    · rw [if_neg hs]
      refine ⟨fun hc => ?_, fun k hk => getRaw_set_solved_ne st uid k0 k hk⟩
      rcases hc with hc | hc <;> exact absurd hc (by simp)

/-- Witness for C10: at the sample store a `solved` run leaves the task key
untouched. -/
theorem C10_submit_frame_witness :
    getRaw (try_submit_flag sampleStore 5 "ctf\x7bflag\x7d").1 "task:ab" =
      getRaw sampleStore "task:ab" :=
  (C10_submit_frame sampleStore 5 "ctf\x7bflag\x7d").2 "task:ab" (by decide)


/-- The spec's "texts joined by single newlines". -/
def joinNl : List String → String
  | [] => ""
  | [t] => t
  | t :: ts => t ++ "\n" ++ joinNl ts

/-- Helper: the join of a list when it continues an existing text. -/
def tailJoin : List String → String
  | [] => ""
  | a :: as => "\n" ++ a ++ tailJoin as

theorem intercalate_go_spec (acc : String) (l : List String) :
    String.intercalate.go acc "\n" l = acc ++ tailJoin l := by
  induction l generalizing acc with
  | nil => simp [String.intercalate.go, tailJoin]
  | cons a as ih =>
    simp only [String.intercalate.go, tailJoin, ih, String.append_assoc]

theorem joinNl_shift (a : String) (as : List String) :
    joinNl (a :: as) = a ++ tailJoin as := by
  induction as generalizing a with
  | nil => simp [joinNl, tailJoin]
  | cons b bs ih =>
    simp only [joinNl, tailJoin, ih, String.append_assoc]

theorem joinNl_eq_intercalate (l : List String) : joinNl l = String.intercalate "\n" l := by
  cases l with
  | nil => rfl
  | cons a as => simp [String.intercalate, intercalate_go_spec, joinNl_shift]

theorem collect_string_append_present (st : Store) (uid : Nat) (x s : String)
    (h : collect_string st ("contact:" ++ toString uid) = some s) :
    collect_string (append_to_contact st uid x) ("contact:" ++ toString uid) =
      some (s ++ "\n" ++ x) := by
  unfold append_to_contact
  dsimp only
  rw [h]
  unfold collect_string
  rw [getRaw_putRaw_self]

theorem collect_string_append_absent (st : Store) (uid : Nat) (x : String)
    (h : collect_string st ("contact:" ++ toString uid) = none) :
    collect_string (append_to_contact st uid x) ("contact:" ++ toString uid) = some x := by
  unfold append_to_contact
  dsimp only
  rw [h]
  unfold collect_string
  rw [getRaw_putRaw_self]

theorem appendAll_present (uid : Nat) :
    ∀ (ts : List String) (st : Store) (s : String),
      collect_string st ("contact:" ++ toString uid) = some s →
      collect_string (ts.foldl (fun a x => append_to_contact a uid x) st)
          ("contact:" ++ toString uid) = some (s ++ tailJoin ts)
  | [], st, s, h => by simpa [tailJoin, String.append_empty] using h
  | x :: ts, st, s, h => by
    rw [List.foldl_cons]
    have h2 := collect_string_append_present st uid x s h
    have h3 := appendAll_present uid ts (append_to_contact st uid x) (s ++ "\n" ++ x) h2
    rw [h3, tailJoin]
    simp [String.append_assoc]

/-- C8 (amended): appending `t :: ts` to an absent buffer and flushing yields
the texts joined by single newlines, and the flush overwrites the buffer with
the empty string (it does not delete the key); because `append_to_contact`
distinguishes a present-but-empty buffer from an absent one, an append of `t`
after a flush followed by a flush returns `"\n" ++ t`, not `t`. -/
theorem C8_contact_buffer :
    (∀ (st : Store) (uid : Nat) (t : String) (ts : List String),
      getRaw st ("contact:" ++ toString uid) = none →
      (retrieve_and_erase_contact
          ((t :: ts).foldl (fun a x => append_to_contact a uid x) st) uid).2 =
        joinNl (t :: ts)) ∧
    (∀ (st : Store) (uid : Nat),
      getRaw (retrieve_and_erase_contact st uid).1 ("contact:" ++ toString uid) =
        some (.str "")) ∧
    (∀ (st : Store) (uid : Nat) (t : String),
      getRaw st ("contact:" ++ toString uid) = some (.str "") →
      (retrieve_and_erase_contact (append_to_contact st uid t) uid).2 = "\n" ++ t) ∧
    (∀ l, joinNl l = String.intercalate "\n" l) := by
  refine ⟨?_, ?_, ?_, joinNl_eq_intercalate⟩
  · intro st uid t ts h
    have h0 : collect_string st ("contact:" ++ toString uid) = none := by
      unfold collect_string
      rw [h]
    rw [List.foldl_cons]
    have h1 := collect_string_append_absent st uid t h0
    have h2 := appendAll_present uid ts (append_to_contact st uid t) t h1
    unfold retrieve_and_erase_contact
    dsimp only
    rw [h2, joinNl_shift]
    rfl
  · intro st uid
    unfold retrieve_and_erase_contact
    rw [getRaw_putRaw_self]
  · intro st uid t h
    have h0 : collect_string st ("contact:" ++ toString uid) = some "" := by
      unfold collect_string
      rw [h]
    have h1 := collect_string_append_present st uid t "" h0
    unfold retrieve_and_erase_contact
    dsimp only
    rw [h1]
    rfl

/-- Witness for C8: three appends to an absent buffer flush to the
newline-join, and a post-flush append flushes to a leading newline. -/
theorem C8_contact_buffer_witness :
    (retrieve_and_erase_contact
        ((["a", "b", "c"] : List String).foldl (fun a x => append_to_contact a 3 x) []) 3).2 =
      joinNl ["a", "b", "c"] ∧
    (retrieve_and_erase_contact
        (append_to_contact (retrieve_and_erase_contact (append_to_contact [] 3 "a") 3).1 3 "b")
        3).2 = "\n" ++ "b" :=
  ⟨C8_contact_buffer.1 [] 3 "a" ["b", "c"] (by decide),
   C8_contact_buffer.2.2.1
     (retrieve_and_erase_contact (append_to_contact [] 3 "a") 3).1 3 "b" (by decide)⟩

/-- C8 as literally stated is false: after a flush the buffer behaves as
present-but-empty, so the next single append followed by a flush returns a
string with a leading newline rather than the appended text itself. -/
theorem C8_contact_buffer_counterexample :
    (retrieve_and_erase_contact
        (append_to_contact (retrieve_and_erase_contact (append_to_contact [] 3 "a") 3).1 3 "b")
        3).2 = "\nb" ∧ ("\nb" : String) ≠ "b" := by
  constructor
  · decide
  · decide

/-- C9: a stored value that fails deserialisation is treated as absent by
every typed read, and the calling operations substitute their empty/default
results instead of failing. -/
theorem C9_malformed_as_absent :
    (∀ st k, getRaw st k = some .malformed →
      collect_string st k = none ∧ collect_task st k = none ∧
      collect_solve st k = none ∧ collect_user st k = none) ∧
    (∀ st k, getRaw st k = some .malformed → scoreOfKey st k = 0) ∧
    (∀ st uid, getRaw st ("contact:" ++ toString uid) = some .malformed →
      (retrieve_and_erase_contact st uid).2 = "") ∧
    (∀ st uid tk, getRaw st (solveKey uid) = some .malformed →
      is_solved st uid tk = false) := by
  refine ⟨?_, ?_, ?_, ?_⟩
  · intro st k h
    unfold collect_string collect_task collect_solve collect_user
    rw [h]
    exact ⟨rfl, rfl, rfl, rfl⟩
  · intro st k h
    unfold scoreOfKey collect_solve
    rw [h]
  · intro st uid h
    unfold retrieve_and_erase_contact collect_string
    dsimp only
    rw [h]
    rfl
  · intro st uid tk h
    unfold is_solved collect_solve
    rw [h]

/-- Witness for C9: a malformed ledger value reads as absent and scores 0. -/
theorem C9_malformed_as_absent_witness :
    (collect_string [("solve:3", Raw.malformed)] "solve:3" = none ∧
      collect_task [("solve:3", Raw.malformed)] "solve:3" = none ∧
      collect_solve [("solve:3", Raw.malformed)] "solve:3" = none ∧
      collect_user [("solve:3", Raw.malformed)] "solve:3" = none) ∧
    scoreOfKey [("solve:3", Raw.malformed)] "solve:3" = 0 :=
  ⟨C9_malformed_as_absent.1 [("solve:3", Raw.malformed)] "solve:3" (by decide),
   C9_malformed_as_absent.2.1 [("solve:3", Raw.malformed)] "solve:3" (by decide)⟩


theorem collect_task_putRaw_self (st : Store) (k : String) (t : Task) :
    collect_task (putRaw st k (.task t)) k = some { t with id := lastSeg k } := by
  unfold collect_task
  rw [getRaw_putRaw_self]

theorem collect_task_putRaw_ne (st : Store) (k k' : String) (v : Raw) (hne : k' ≠ k) :
    collect_task (putRaw st k v) k' = collect_task st k' := by
  unfold collect_task
  rw [getRaw_putRaw_ne st k k' v hne]

theorem run_creates_spec : ∀ (reqs : List (Task × List String)) (st : Store),
    ((run_creates st reqs).2.filterMap id).Nodup ∧
    (∀ k, (collect_task st k).isSome → some k ∉ (run_creates st reqs).2) ∧
    (∀ k, some k ∈ (run_creates st reqs).2 → (collect_task (run_creates st reqs).1 k).isSome) ∧
    (∀ k, (collect_task st k).isSome → (collect_task (run_creates st reqs).1 k).isSome)
  | [], st => by
    refine ⟨by simp [run_creates], ?_, ?_, ?_⟩
    · intro k _
      simp [run_creates]
    · intro k hk
      simp [run_creates] at hk
    · intro k hk
      simpa [run_creates] using hk
  | (t, cs) :: reqs, st => by
    cases hf : cs.find? (fun c => (collect_task st ("task:" ++ c)).isNone) with
    | none =>
      have heq : run_creates st ((t, cs) :: reqs) =
          ((run_creates st reqs).1, none :: (run_creates st reqs).2) := by
        simp only [run_creates, create_task_crit, hf]
      obtain ⟨ih1, ih2, ih3, ih4⟩ := run_creates_spec reqs st
      rw [heq]
      refine ⟨by simpa using ih1, ?_, ?_, ih4⟩
      · intro k hk
        simp only [List.mem_cons, not_or]
        exact ⟨by simp, ih2 k hk⟩
      · intro k hk
        simp only [List.mem_cons] at hk
        rcases hk with hk | hk
        · exact absurd hk.symm (by simp)
        · exact ih3 k hk
    | some c =>
      have hfree : (collect_task st ("task:" ++ c)).isNone := by
        have := List.find?_some hf
        simpa using this
      have heq : run_creates st ((t, cs) :: reqs) =
          ((run_creates (putRaw st ("task:" ++ c) (.task t)) reqs).1,
            some ("task:" ++ c) :: (run_creates (putRaw st ("task:" ++ c) (.task t)) reqs).2) := by
        simp only [run_creates, create_task_crit, hf]
      set st' := putRaw st ("task:" ++ c) (.task t) with hst'
      have hres : (collect_task st' ("task:" ++ c)).isSome := by
        rw [hst', collect_task_putRaw_self]
        rfl
      have hpres : ∀ k, (collect_task st k).isSome → (collect_task st' k).isSome := by
        intro k hk
        by_cases he : k = "task:" ++ c
        · subst he
          rw [Option.isNone_iff_eq_none] at hfree
          rw [hfree] at hk
          exact absurd hk (by simp)
        · rw [hst', collect_task_putRaw_ne st _ k _ he]
          exact hk
      obtain ⟨ih1, ih2, ih3, ih4⟩ := run_creates_spec reqs st'
      rw [heq]
      refine ⟨?_, ?_, ?_, ?_⟩
      · have hfm : (some ("task:" ++ c) :: (run_creates st' reqs).2).filterMap id =
            ("task:" ++ c) :: ((run_creates st' reqs).2.filterMap id) := by simp
        rw [hfm, List.nodup_cons]
        refine ⟨?_, ih1⟩
        intro hm
        have hmem : some ("task:" ++ c) ∈ (run_creates st' reqs).2 := by
          rw [List.mem_filterMap] at hm
          obtain ⟨a, ha, hae⟩ := hm
          rw [show a = some ("task:" ++ c) from hae] at ha
          exact ha
        exact ih2 _ hres hmem
      · intro k hk
        simp only [List.mem_cons, not_or]
        constructor
        · intro he
          have hke : k = "task:" ++ c := by injection he
          subst hke
          rw [Option.isNone_iff_eq_none] at hfree
          rw [hfree] at hk
          exact absurd hk (by simp)
        · exact ih2 k (hpres k hk)
      · intro k hk
        simp only [List.mem_cons] at hk
        rcases hk with hk | hk
        · have hke : k = "task:" ++ c := by injection hk
          subst hke
          exact ih4 _ hres
        · exact ih3 k hk
      · intro k hk
        exact ih4 k (hpres k hk)



/-- A second sample task used by the create witness. -/
def sampleTask2 : Task := ⟨"Beta", .multi ["a", "b"], "h2", "", false⟩

/-- C2: the generate-check-reserve loop of `create_task`, serialised by the
process-wide lock it runs under, never hands out the same identifier twice:
across any batch of concurrent creation calls (each with its stream of random
candidates) the allocated keys are pairwise distinct, and every allocated key
is left reserved (holding a well-formed task) in the final store. -/
theorem C2_unique_task_identifiers :
    ∀ (st : Store) (reqs : List (Task × List String)),
      ((run_creates st reqs).2.filterMap id).Nodup ∧
      (∀ k, some k ∈ (run_creates st reqs).2 →
        (collect_task (run_creates st reqs).1 k).isSome) ∧
      (∀ k, (collect_task st k).isSome → some k ∉ (run_creates st reqs).2) :=
  fun st reqs =>
    ⟨(run_creates_spec reqs st).1, (run_creates_spec reqs st).2.2.1,
      (run_creates_spec reqs st).2.1⟩

/-- Witness for C2: two creations whose candidate streams both start at `x`
end up with the distinct keys `task:x` and `task:y`, both reserved. -/
theorem C2_unique_task_identifiers_witness :
    (run_creates [] [(sampleTask, ["x"]), (sampleTask2, ["x", "y"])]).2 =
      [some "task:x", some "task:y"] ∧
    ((run_creates [] [(sampleTask, ["x"]), (sampleTask2, ["x", "y"])]).2.filterMap id).Nodup ∧
    (collect_task (run_creates [] [(sampleTask, ["x"]), (sampleTask2, ["x", "y"])]).1
        "task:y").isSome :=
  ⟨by decide,
   (C2_unique_task_identifiers [] [(sampleTask, ["x"]), (sampleTask2, ["x", "y"])]).1,
   (C2_unique_task_identifiers [] [(sampleTask, ["x"]), (sampleTask2, ["x", "y"])]).2.1
     "task:y" (by decide)⟩



instance : IsTotal (Vas3kUser × Nat) boardDesc :=
  ⟨fun a b => Nat.le_total b.2 a.2⟩

instance : IsTrans (Vas3kUser × Nat) boardDesc :=
  ⟨fun _ _ _ h1 h2 => le_trans h2 h1⟩

theorem getRaw_of_mem_nodup (st : Store) (k : String) (v : Raw)
    (hnd : (st.map Prod.fst).Nodup) (hm : (k, v) ∈ st) :
    getRaw st k = some v := by
  induction st with
  | nil => simp at hm
  | cons p rest ih =>
    rw [List.map_cons, List.nodup_cons] at hnd
    rcases List.mem_cons.mp hm with he | hm'
    · subst he
      unfold getRaw
      rw [List.find?_cons_of_pos _ (by simp)]
      rfl
    · by_cases hk : (p.1 == k) = true
      · exfalso
        have hk' : p.1 = k := by simpa using hk
        exact hnd.1 (hk' ▸ List.mem_map_of_mem Prod.fst hm')
      · unfold getRaw
        have hk' : (p.1 == k) = false := by simpa using hk
        simp only [List.find?, hk']
        exact ih hnd.2 hm'

theorem mem_get_keys (st : Store) (k : String) (v : Raw) (pre : String)
    (hm : (k, v) ∈ st) (hp : strStarts pre k = true) : k ∈ get_keys st pre := by
  unfold get_keys
  rw [List.mem_filter]
  exact ⟨List.mem_map_of_mem Prod.fst hm, hp⟩

/-- The profile produced by `collect_user` for an entry stored at key `k`. -/
def displayedUser (k : String) (u : Vas3kUser) : Vas3kUser :=
  { u with telegram_id := (parseI64 (lastSeg k)).getD 0 }

theorem collect_user_of_mem (st : Store) (k : String) (u : Vas3kUser)
    (hnd : (st.map Prod.fst).Nodup) (hm : (k, .user u) ∈ st) :
    collect_user st k = some (displayedUser k u) := by
  unfold collect_user displayedUser
  rw [getRaw_of_mem_nodup st k _ hnd hm]

theorem mem_scoreboard_iff (cfg : Config) (st : Store) (p : Vas3kUser × Nat) :
    p ∈ get_scoreboard cfg st ↔
      ∃ k ∈ get_keys st "user:", ∃ u, collect_user st k = some u ∧
        p = scoreboardEntry cfg st k u := by
  unfold get_scoreboard
  rw [(List.perm_insertionSort boardDesc _).mem_iff, List.mem_filterMap]
  constructor
  · rintro ⟨k, hk, he⟩
    cases hu : collect_user st k with
    | none => rw [hu] at he; exact absurd he (by simp)
    | some u =>
      rw [hu] at he
      refine ⟨k, hk, u, hu, ?_⟩
      injection he with he
      exact he.symm
  · rintro ⟨k, hk, u, hu, hp⟩
    refine ⟨k, hk, ?_⟩
    rw [hu, hp]

/-- C7 as literally stated is false: only the test group is zeroed on the
scoreboard.  With `admin_group = [7]`, `test_group = []` and one solve stored
for participant 7, the board shows the admin's true score 1, not 0. -/
theorem C7_scoreboard_counterexample :
    get_scoreboard ⟨[], [7]⟩ [("user:7", .user ⟨0, "Ann"⟩), ("solve:7", .solve ⟨["task:a"]⟩)] =
      [(⟨7, "Ann"⟩, 1)] ∧
    is_admin ⟨[], [7]⟩ (toU64 (7 : Int)) = true ∧
    is_test_user ⟨[], [7]⟩ (toU64 (7 : Int)) = false ∧
    (1 : Nat) ≠ 0 := by
  refine ⟨by decide, by decide, by decide, by decide⟩

/-- C7 (amended): the scoreboard lists, in descending displayed-score order,
one entry per well-formed stored profile; entries of the test class are shown
with score zero, while every other entry — admins included — shows the ledger
size under the matching solve key.  The operation reads the store only. -/
theorem C7_scoreboard :
    (∀ cfg st, (get_scoreboard cfg st).Sorted boardDesc) ∧
    (∀ cfg st p, p ∈ get_scoreboard cfg st →
      is_test_user cfg (toU64 p.1.telegram_id) = true → p.2 = 0) ∧
    (∀ cfg st p, p ∈ get_scoreboard cfg st →
      is_test_user cfg (toU64 p.1.telegram_id) = false →
      ∃ k u, (k, Raw.user u) ∈ st ∧ strStarts "user:" k = true ∧
        collect_user st k = some p.1 ∧
        p.2 = scoreOfKey st ("solve:" ++ dropChars 5 k)) ∧
    (∀ cfg st k u, (st.map Prod.fst).Nodup → (k, Raw.user u) ∈ st →
      strStarts "user:" k = true →
      scoreboardEntry cfg st k (displayedUser k u) ∈ get_scoreboard cfg st) := by
  refine ⟨?_, ?_, ?_, ?_⟩
  · intro cfg st
    exact List.sorted_insertionSort boardDesc _
  · intro cfg st p hp ht
    obtain ⟨k, hk, u, hu, hpe⟩ := (mem_scoreboard_iff cfg st p).mp hp
    unfold scoreboardEntry at hpe
    by_cases hc : is_test_user cfg (toU64 u.telegram_id) = true
    · rw [if_pos hc] at hpe
      rw [hpe]
    · rw [if_neg hc] at hpe
      rw [hpe] at ht
      exact absurd ht hc
  · intro cfg st p hp ht
    obtain ⟨k, hk, u, hu, hpe⟩ := (mem_scoreboard_iff cfg st p).mp hp
    unfold scoreboardEntry at hpe
    by_cases hc : is_test_user cfg (toU64 u.telegram_id) = true
    · rw [if_pos hc] at hpe
      rw [hpe] at ht
      simp only at ht
      rw [ht] at hc
      exact absurd hc (by simp)
    · rw [if_neg hc] at hpe
      obtain ⟨u0, hu0⟩ : ∃ u0, getRaw st k = some (.user u0) := by
        unfold collect_user at hu
        cases hg : getRaw st k with
        | none => rw [hg] at hu; exact absurd hu (by simp)
        | some v =>
          cases v with
          | user u0 => exact ⟨u0, rfl⟩
          | str s => rw [hg] at hu; exact absurd hu (by simp)
          | task t => rw [hg] at hu; exact absurd hu (by simp)
          | solve sv => rw [hg] at hu; exact absurd hu (by simp)
          | malformed => rw [hg] at hu; exact absurd hu (by simp)
      refine ⟨k, u0, ?_, ?_, ?_, ?_⟩
      · obtain ⟨q, hq⟩ := Option.map_eq_some'.mp (show (st.find? (fun p => p.1 == k)).map
          (fun p => p.2) = some (.user u0) from hu0)
        have hqm := List.mem_of_find?_eq_some hq.1
        have hqk : q.1 = k := by
          have := List.find?_some hq.1
          simpa using this
        have : q = (k, Raw.user u0) := by
          cases q with
          | mk a b =>
            simp only at hqk hq
            rw [hqk, hq.2]
        rw [← this]
        exact hqm
      · unfold get_keys at hk
        exact (List.mem_filter.mp hk).2
      · rw [hu, hpe]
      · rw [hpe]
  · intro cfg st k u hnd hm hp
    rw [mem_scoreboard_iff]
    exact ⟨k, mem_get_keys st k _ "user:" hm hp, displayedUser k u,
      collect_user_of_mem st k u hnd hm, rfl⟩

/-- Witness for C7: the admin store above contains exactly the non-test entry
with its true ledger size, via the amended theorem's membership conjunct. -/
theorem C7_scoreboard_witness :
    scoreboardEntry ⟨[], [7]⟩
        [("user:7", .user ⟨0, "Ann"⟩), ("solve:7", .solve ⟨["task:a"]⟩)] "user:7"
        (displayedUser "user:7" ⟨0, "Ann"⟩) ∈
      get_scoreboard ⟨[], [7]⟩
        [("user:7", .user ⟨0, "Ann"⟩), ("solve:7", .solve ⟨["task:a"]⟩)] :=
  C7_scoreboard.2.2.2 ⟨[], [7]⟩
    [("user:7", .user ⟨0, "Ann"⟩), ("solve:7", .solve ⟨["task:a"]⟩)] "user:7" ⟨0, "Ann"⟩
    (by decide) (by decide) (by decide)



instance : IsTotal (String × Nat) scoreDesc :=
  ⟨fun a b => Nat.le_total b.2 a.2⟩

instance : IsTrans (String × Nat) scoreDesc :=
  ⟨fun _ _ _ h1 h2 => le_trans h2 h1⟩

theorem placeIn_none (key : String) : ∀ (l : List (String × Nat)) (n : Nat),
    placeIn key n l = none ↔ key ∉ l.map Prod.fst
  | [], n => by simp [placeIn]
  | (k0, s0) :: rest, n => by
    by_cases h : (k0 == key) = true
    · have hk : k0 = key := by simpa using h
      simp [placeIn, h, hk]
    · have hk : ¬ k0 = key := by simpa using h
      have hstep : placeIn key n ((k0, s0) :: rest) = placeIn key (n + 1) rest := by
        simp only [placeIn]
        rw [if_neg h]
      rw [hstep, placeIn_none key rest (n + 1)]
      simp only [List.map_cons, List.mem_cons, not_or]
      constructor
      · intro hr
        exact ⟨fun he => hk he.symm, hr⟩
      · intro hr
        exact hr.2

theorem placeIn_found (key : String) : ∀ (l : List (String × Nat)) (n : Nat),
    key ∈ l.map Prod.fst →
    ∃ i sc, placeIn key n l = some (n + i + 1, sc) ∧ l.get? i = some (key, sc)
  | [], n, hm => by simp at hm
  | (k0, s0) :: rest, n, hm => by
    by_cases h : (k0 == key) = true
    · have hk : k0 = key := by simpa using h
      refine ⟨0, s0, ?_, ?_⟩
      · simp [placeIn, h]
      · simp [hk]
    · have hk : ¬ k0 = key := by simpa using h
      have hm' : key ∈ rest.map Prod.fst := by
        simp only [List.map_cons, List.mem_cons] at hm
        rcases hm with hm | hm
        · exact absurd hm.symm hk
        · exact hm
      obtain ⟨i, sc, h1, h2⟩ := placeIn_found key rest (n + 1) hm'
      refine ⟨i + 1, sc, ?_, ?_⟩
      · have he : n + 1 + i + 1 = n + (i + 1) + 1 := by omega
        simp only [placeIn]
        rw [if_neg h, h1, he]
      · exact h2

theorem scoreData_fst (st : Store) : (scoreData st).map Prod.fst = get_keys st "solve:" := by
  unfold scoreData
  rw [List.map_map]
  rw [show (Prod.fst ∘ fun k => (k, scoreOfKey st k)) = id from rfl, List.map_id]

theorem strStarts_append (p s : String) : strStarts p (p ++ s) = true := by
  unfold strStarts
  rw [List.isPrefixOf_iff_prefix]
  exact List.prefix_append p.data s.data

theorem getRaw_eq_none_of_not_mem (st : Store) (k : String)
    (h : k ∉ st.map Prod.fst) : getRaw st k = none := by
  unfold getRaw
  have : st.find? (fun p => p.1 == k) = none := by
    rw [List.find?_eq_none]
    intro x hx hc
    exact h ((by simpa using hc : x.1 = k) ▸ List.mem_map_of_mem Prod.fst hx)
  rw [this]
  rfl

theorem sortedScores_entry (st : Store) (key : String) (sc : Nat)
    (hm : (key, sc) ∈ sortedScores st) : sc = scoreOfKey st key := by
  have : (key, sc) ∈ scoreData st :=
    (List.perm_insertionSort scoreDesc (scoreData st)).mem_iff.mp hm
  unfold scoreData at this
  obtain ⟨k, _, he⟩ := List.mem_map.mp this
  injection he with he1 he2
  subst he1
  exact he2.symm



theorem mem_fst_exists (st : Store) (k : String) (h : k ∈ st.map Prod.fst) :
    ∃ v, (k, v) ∈ st := by
  obtain ⟨p, hp, he⟩ := List.mem_map.mp h
  exact ⟨p.2, by rw [← he]; exact hp⟩

theorem sorted_fst_mem (st : Store) (k : String) :
    k ∈ (sortedScores st).map Prod.fst ↔ k ∈ get_keys st "solve:" := by
  rw [← scoreData_fst]
  exact ((List.perm_insertionSort scoreDesc (scoreData st)).map Prod.fst).mem_iff

theorem get_score_found (st : Store) (uid : Nat)
    (hm : solveKey uid ∈ (sortedScores st).map Prod.fst) :
    ∃ i, (sortedScores st).get? i = some (solveKey uid, scoreOfKey st (solveKey uid)) ∧
      placeIn (solveKey uid) 0 (sortedScores st) =
        some (i + 1, scoreOfKey st (solveKey uid)) := by
  obtain ⟨i, sc, h1, h2⟩ := placeIn_found (solveKey uid) (sortedScores st) 0 hm
  have hsc : sc = scoreOfKey st (solveKey uid) :=
    sortedScores_entry st _ sc (List.get?_mem h2)
  subst hsc
  refine ⟨i, h2, ?_⟩
  rw [h1]
  congr 2
  omega

theorem scoreOfKey_zero_of_not_listed (st : Store) (uid : Nat)
    (h : solveKey uid ∉ get_keys st "solve:") :
    scoreOfKey st (solveKey uid) = 0 := by
  have hnm : solveKey uid ∉ st.map Prod.fst := by
    intro hmem
    obtain ⟨v, hv⟩ := mem_fst_exists st _ hmem
    exact h (mem_get_keys st _ v "solve:" hv (strStarts_append "solve:" (toString uid)))
  unfold scoreOfKey collect_solve
  rw [getRaw_eq_none_of_not_mem st _ hnm]

/-- C6: the standing's score is the participant's ledger size (0 when the
ledger is absent or malformed); for a test/admin participant the rank is the
sentinel `u64::MAX` with the same score; otherwise, when the participant has a
stored ledger, the rank is the 1-based position of their ledger key in the
stably descending-sorted ledger list, so every entry ranked above has at least
their score; the sorted list is descending and ties keep store enumeration
order (stability). -/
theorem C6_standing :
    (∀ cfg st uid, (get_score cfg st uid).2 = scoreOfKey st (solveKey uid)) ∧
    (∀ cfg st uid, (is_test_user cfg uid || is_admin cfg uid) = true →
      (get_score cfg st uid).1 = U64MAX) ∧
    (∀ cfg st uid, (is_test_user cfg uid || is_admin cfg uid) = false →
      solveKey uid ∈ get_keys st "solve:" →
      ∃ i, (sortedScores st).get? i = some (solveKey uid, (get_score cfg st uid).2) ∧
        (get_score cfg st uid).1 = i + 1 ∧
        ∀ j p, j < i → (sortedScores st).get? j = some p →
          (get_score cfg st uid).2 ≤ p.2) ∧
    (∀ st, (sortedScores st).Sorted scoreDesc) ∧
    (∀ st a b, scoreDesc a b → List.Sublist [a, b] (scoreData st) →
      List.Sublist [a, b] (sortedScores st)) := by
  refine ⟨?_, ?_, ?_, ?_, ?_⟩
  · intro cfg st uid
    unfold get_score
    dsimp only
    by_cases hm : solveKey uid ∈ (sortedScores st).map Prod.fst
    · obtain ⟨i, h2, h1⟩ := get_score_found st uid hm
      rw [h1]
      by_cases hh : (is_test_user cfg uid || is_admin cfg uid) = true
      · rw [if_pos hh]
        rfl
      · rw [if_neg hh]
        rfl
    · have hp := (placeIn_none (solveKey uid) (sortedScores st) 0).mpr hm
      rw [hp]
      have h0 : scoreOfKey st (solveKey uid) = 0 :=
        scoreOfKey_zero_of_not_listed st uid (fun hc => hm ((sorted_fst_mem st _).mpr hc))
      rw [h0]
      by_cases hh : (is_test_user cfg uid || is_admin cfg uid) = true
      · rw [if_pos hh]
        rfl
      · rw [if_neg hh]
        rfl
  · intro cfg st uid hh
    unfold get_score
    dsimp only
    rw [if_pos hh]
  · intro cfg st uid hh hmem
    have hm : solveKey uid ∈ (sortedScores st).map Prod.fst := (sorted_fst_mem st _).mpr hmem
    obtain ⟨i, h2, h1⟩ := get_score_found st uid hm
    have hscore : (get_score cfg st uid).2 = scoreOfKey st (solveKey uid) := by
      unfold get_score
      dsimp only
      rw [h1, if_neg (by rw [hh]; exact Bool.false_ne_true)]
      rfl
    have hrank : (get_score cfg st uid).1 = i + 1 := by
      unfold get_score
      dsimp only
      rw [h1, if_neg (by rw [hh]; exact Bool.false_ne_true)]
      rfl
    refine ⟨i, by rw [hscore]; exact h2, hrank, ?_⟩
    intro j p hj hpj
    rw [hscore]
    have hs : (sortedScores st).Sorted scoreDesc :=
      List.sorted_insertionSort scoreDesc (scoreData st)
    obtain ⟨hjl, hjg⟩ := List.get?_eq_some.mp hpj
    obtain ⟨hil, hig⟩ := List.get?_eq_some.mp h2
    have hr := List.Sorted.rel_get_of_lt hs (show (⟨j, hjl⟩ : Fin _) < ⟨i, hil⟩ from hj)
    rw [hjg, hig] at hr
    exact hr
  · intro st
    exact List.sorted_insertionSort scoreDesc _
  · intro st a b hab hsl
    exact List.pair_sublist_insertionSort hab hsl

/-- Witness for C6: in a two-ledger store, participant 2 has score 1 and rank
2; made hidden by a test-group entry, the rank collapses to the sentinel. -/
theorem C6_standing_witness :
    (get_score ⟨[], []⟩
        [("solve:1", .solve ⟨["task:a", "task:b"]⟩), ("solve:2", .solve ⟨["task:a"]⟩)] 2).2 =
      scoreOfKey
        [("solve:1", .solve ⟨["task:a", "task:b"]⟩), ("solve:2", .solve ⟨["task:a"]⟩)]
        (solveKey 2) ∧
    (get_score ⟨[2], []⟩
        [("solve:1", .solve ⟨["task:a", "task:b"]⟩), ("solve:2", .solve ⟨["task:a"]⟩)] 2).1 =
      U64MAX ∧
    (∃ i, (sortedScores
        [("solve:1", .solve ⟨["task:a", "task:b"]⟩), ("solve:2", .solve ⟨["task:a"]⟩)]).get? i =
        some (solveKey 2,
          (get_score ⟨[], []⟩
            [("solve:1", .solve ⟨["task:a", "task:b"]⟩), ("solve:2", .solve ⟨["task:a"]⟩)] 2).2) ∧
        (get_score ⟨[], []⟩
          [("solve:1", .solve ⟨["task:a", "task:b"]⟩), ("solve:2", .solve ⟨["task:a"]⟩)] 2).1 =
          i + 1 ∧
        ∀ j p, j < i →
          (sortedScores
            [("solve:1", .solve ⟨["task:a", "task:b"]⟩),
              ("solve:2", .solve ⟨["task:a"]⟩)]).get? j = some p →
          (get_score ⟨[], []⟩
            [("solve:1", .solve ⟨["task:a", "task:b"]⟩), ("solve:2", .solve ⟨["task:a"]⟩)] 2).2 ≤
            p.2) :=
  ⟨C6_standing.1 ⟨[], []⟩ _ 2,
   C6_standing.2.1 ⟨[2], []⟩ _ 2 (by decide),
   C6_standing.2.2.1 ⟨[], []⟩ _ 2 (by decide) (by decide)⟩



theorem sendStep_balance (s : SendSt) (c : SCmd) (m : Msg)
    (h : ownedCount s m + deliveredCount s m = s.enqLog.count m) :
    ownedCount (sendStep s c) m + deliveredCount (sendStep s c) m =
      (sendStep s c).enqLog.count m := by
  cases c with
  | enq m' =>
    simp only [sendStep]
    by_cases hc : s.queue.length < chanCap
    · rw [if_pos hc]
      unfold ownedCount deliveredCount at h ⊢
      simp only [List.count_append]
      omega
    · rw [if_neg hc]
      exact h
  | recvq =>
    simp only [sendStep]
    cases hph : s.phase with
    | idle =>
      cases hq : s.queue with
      | nil => exact h
      | cons m0 rest =>
        dsimp only
        unfold ownedCount deliveredCount at h ⊢
        rw [hph, hq] at h
        simp only [phaseHold, List.count_cons, beq_iff_eq] at h ⊢
        by_cases hm : m0 = m
        · simp only [hm, if_pos rfl] at h ⊢
          omega
        · simp only [if_neg hm] at h ⊢
          omega
    | quota m0 => exact h
    | deferring m0 => exact h
    | inflight m0 t0 => exact h
  | poll =>
    simp only [sendStep]
    cases hph : s.phase with
    | idle => exact h
    | quota m0 =>
      dsimp only
      by_cases hc : s.counter = 0
      · rw [if_pos hc]
        unfold ownedCount deliveredCount at h ⊢
        rw [hph] at h
        exact h
      · rw [if_neg hc]
        exact h
    | deferring m0 => exact h
    | inflight m0 t0 => exact h
  | acquire =>
    simp only [sendStep]
    cases hph : s.phase with
    | idle => exact h
    | quota m0 =>
      dsimp only
      by_cases hc : s.counter = 0
      · rw [if_pos hc]
        exact h
      · rw [if_neg hc]
        unfold ownedCount deliveredCount at h ⊢
        rw [hph] at h
        cases hl : lookupT s.timeouts m0.dest with
        | some t0 =>
          dsimp only
          by_cases ht : s.time < t0 + RATE_CHAT
          · rw [if_pos ht]
            simpa [phaseHold] using h
          · rw [if_neg ht]
            simpa [phaseHold] using h
        | none =>
          dsimp only
          simpa [phaseHold] using h
    | deferring m0 => exact h
    | inflight m0 t0 => exact h
  | reenq =>
    simp only [sendStep]
    cases hph : s.phase with
    | idle => exact h
    | quota m0 => exact h
    | deferring m0 =>
      dsimp only
      by_cases hc : s.queue.length < chanCap
      · rw [if_pos hc]
        unfold ownedCount deliveredCount at h ⊢
        rw [hph] at h
        simp only [phaseHold, List.count_append, List.count_cons, List.count_nil,
          beq_iff_eq] at h ⊢
        by_cases hm : m0 = m
        · simp only [hm, if_pos rfl] at h ⊢
          omega
        · simp only [if_neg hm] at h ⊢
          omega
      · rw [if_neg hc]
        exact h
    | inflight m0 t0 => exact h
  | finishOk =>
    simp only [sendStep]
    cases hph : s.phase with
    | idle => exact h
    | quota m0 => exact h
    | deferring m0 => exact h
    | inflight m0 t0 =>
      dsimp only
      unfold ownedCount deliveredCount at h ⊢
      rw [hph] at h
      simp only [phaseHold, List.map_append, List.count_append, List.map_cons, List.map_nil,
        List.count_cons, List.count_nil, beq_iff_eq] at h ⊢
      by_cases hm : m0 = m
      · simp only [hm, if_pos rfl] at h ⊢
        omega
      · simp only [if_neg hm] at h ⊢
        omega
  | finishFail =>
    simp only [sendStep]
    cases hph : s.phase with
    | idle => exact h
    | quota m0 => exact h
    | deferring m0 => exact h
    | inflight m0 t0 =>
      dsimp only
      by_cases hc : s.queue.length < chanCap
      · rw [if_pos hc]
        unfold ownedCount deliveredCount at h ⊢
        rw [hph] at h
        simp only [phaseHold, List.count_append, List.count_cons, List.count_nil,
          beq_iff_eq] at h ⊢
        by_cases hm : m0 = m
        · simp only [hm, if_pos rfl] at h ⊢
          omega
        · simp only [if_neg hm] at h ⊢
          omega
      · rw [if_neg hc]
        exact h
  | reset =>
    simp only [sendStep]
    by_cases hc : s.lastReset + 1000 ≤ s.time
    · rw [if_pos hc]
      exact h
    · rw [if_neg hc]
      exact h
  | tick n =>
    simp only [sendStep]
    exact h



/-- Spacing discipline between two delivery-log entries. -/
def spacingOK (a b : Msg × Nat) : Prop :=
  a.1.dest = b.1.dest → a.2 + RATE_CHAT ≤ b.2

/-- Inductive invariant of the sender machine: quota accounting, the
timeout map dominating the delivery log, the in-flight start time respecting
the spacing guard, and pairwise spacing of logged deliveries. -/
def SendInv (s : SendSt) : Prop :=
  s.counter + s.acqs = RATE_ALL ∧
  s.sends ≤ s.acqs ∧
  (∀ p ∈ s.delivLog, ∃ t, lookupT s.timeouts p.1.dest = some t ∧ p.2 ≤ t) ∧
  (∀ d t, lookupT s.timeouts d = some t → t ≤ s.time) ∧
  (∀ m0 t0, s.phase = .inflight m0 t0 → t0 ≤ s.time ∧
    ∀ t, lookupT s.timeouts m0.dest = some t → t + RATE_CHAT ≤ t0) ∧
  s.delivLog.Pairwise spacingOK

theorem sendStep_inv (s : SendSt) (c : SCmd) (hI : SendInv s) : SendInv (sendStep s c) := by
  obtain ⟨hA, hB, hC, hD, hE, hF⟩ := hI
  cases c with
  | enq m' =>
    simp only [sendStep]
    by_cases hc : s.queue.length < chanCap
    · rw [if_pos hc]
      unfold SendInv
      dsimp only
      exact ⟨hA, hB, hC, hD, hE, hF⟩
    · rw [if_neg hc]
      exact ⟨hA, hB, hC, hD, hE, hF⟩
  | recvq =>
    simp only [sendStep]
    cases hph : s.phase with
    | idle =>
      cases hq : s.queue with
      | nil => exact ⟨hA, hB, hC, hD, hE, hF⟩
      | cons m0 rest =>
        unfold SendInv
        dsimp only
        refine ⟨hA, hB, hC, hD, ?_, hF⟩
        intro m1 t1 hp
        exact absurd hp (by simp)
    | quota m0 => exact ⟨hA, hB, hC, hD, hE, hF⟩
    | deferring m0 => exact ⟨hA, hB, hC, hD, hE, hF⟩
    | inflight m0 t0 => exact ⟨hA, hB, hC, hD, hE, hF⟩
  | poll =>
    simp only [sendStep]
    cases hph : s.phase with
    | idle => exact ⟨hA, hB, hC, hD, hE, hF⟩
    | quota m0 =>
      dsimp only
      by_cases hc : s.counter = 0
      · rw [if_pos hc]
        unfold SendInv
        dsimp only
        refine ⟨hA, hB, hC, ?_, ?_, hF⟩
        · intro d t hl
          exact le_trans (hD d t hl) (by omega)
        · intro m1 t1 hp
          exact absurd hp (by simp)
      · rw [if_neg hc]
        exact ⟨hA, hB, hC, hD, hE, hF⟩
    | deferring m0 => exact ⟨hA, hB, hC, hD, hE, hF⟩
    | inflight m0 t0 => exact ⟨hA, hB, hC, hD, hE, hF⟩
  | acquire =>
    simp only [sendStep]
    cases hph : s.phase with
    | idle => exact ⟨hA, hB, hC, hD, hE, hF⟩
    | quota m0 =>
      dsimp only
      by_cases hc : s.counter = 0
      · rw [if_pos hc]
        exact ⟨hA, hB, hC, hD, hE, hF⟩
      · rw [if_neg hc]
        cases hl : lookupT s.timeouts m0.dest with
        | some t0 =>
          dsimp only
          by_cases ht : s.time < t0 + RATE_CHAT
          · rw [if_pos ht]
            unfold SendInv
            dsimp only
            refine ⟨by omega, by omega, hC, hD, ?_, hF⟩
            intro m1 t1 hp
            exact absurd hp (by simp)
          · rw [if_neg ht]
            unfold SendInv
            dsimp only
            refine ⟨by omega, by omega, hC, hD, ?_, hF⟩
            intro m1 t1 hp
            injection hp with h1 h2
            subst h1
            subst h2
            refine ⟨le_refl _, ?_⟩
            intro t htl
            rw [hl] at htl
            injection htl with htl
            subst htl
            omega
        | none =>
          unfold SendInv
          dsimp only
          refine ⟨by omega, by omega, hC, hD, ?_, hF⟩
          intro m1 t1 hp
          injection hp with h1 h2
          subst h1
          subst h2
          refine ⟨le_refl _, ?_⟩
          intro t htl
          rw [hl] at htl
          exact absurd htl (by simp)
    | deferring m0 => exact ⟨hA, hB, hC, hD, hE, hF⟩
    | inflight m0 t0 => exact ⟨hA, hB, hC, hD, hE, hF⟩
  | reenq =>
    simp only [sendStep]
    cases hph : s.phase with
    | idle => exact ⟨hA, hB, hC, hD, hE, hF⟩
    | quota m0 => exact ⟨hA, hB, hC, hD, hE, hF⟩
    | deferring m0 =>
      dsimp only
      by_cases hc : s.queue.length < chanCap
      · rw [if_pos hc]
        unfold SendInv
        dsimp only
        refine ⟨hA, hB, hC, hD, ?_, hF⟩
        intro m1 t1 hp
        exact absurd hp (by simp)
      · rw [if_neg hc]
        exact ⟨hA, hB, hC, hD, hE, hF⟩
    | inflight m0 t0 => exact ⟨hA, hB, hC, hD, hE, hF⟩
  | finishOk =>
    simp only [sendStep]
    cases hph : s.phase with
    | idle => exact ⟨hA, hB, hC, hD, hE, hF⟩
    | quota m0 => exact ⟨hA, hB, hC, hD, hE, hF⟩
    | deferring m0 => exact ⟨hA, hB, hC, hD, hE, hF⟩
    | inflight m0 t0 =>
      dsimp only
      obtain ⟨hts, htl⟩ := hE m0 t0 hph
      unfold SendInv
      dsimp only
      refine ⟨hA, hB, ?_, ?_, ?_, ?_⟩
      · intro p hp
        rw [List.mem_append] at hp
        rcases hp with hp | hp
        · obtain ⟨t, htt, hpt⟩ := hC p hp
          by_cases hd : p.1.dest = m0.dest
          · refine ⟨s.time, ?_, ?_⟩
            · rw [hd]
              exact lookupT_insertT_self s.timeouts m0.dest s.time
            · exact le_trans hpt (hD _ t htt)
          · refine ⟨t, ?_, hpt⟩
            rw [lookupT_insertT_ne s.timeouts m0.dest p.1.dest s.time hd]
            exact htt
        · rw [List.mem_singleton] at hp
          subst hp
          exact ⟨s.time, lookupT_insertT_self s.timeouts m0.dest s.time, le_refl _⟩
      · intro d t hlk
        by_cases hd : d = m0.dest
        · subst hd
          rw [lookupT_insertT_self] at hlk
          injection hlk with hlk
          omega
        · rw [lookupT_insertT_ne s.timeouts m0.dest d s.time hd] at hlk
          exact hD d t hlk
      · intro m1 t1 hp
        exact absurd hp (by simp)
      · rw [List.pairwise_append]
        refine ⟨hF, List.pairwise_singleton _ _, ?_⟩
        intro a ha b hb
        rw [List.mem_singleton] at hb
        subst hb
        intro hd
        obtain ⟨t, htt, hpt⟩ := hC a ha
        rw [hd] at htt
        have := htl t htt
        show a.2 + RATE_CHAT ≤ s.time
        omega
  | finishFail =>
    simp only [sendStep]
    cases hph : s.phase with
    | idle => exact ⟨hA, hB, hC, hD, hE, hF⟩
    | quota m0 => exact ⟨hA, hB, hC, hD, hE, hF⟩
    | deferring m0 => exact ⟨hA, hB, hC, hD, hE, hF⟩
    | inflight m0 t0 =>
      dsimp only
      by_cases hc : s.queue.length < chanCap
      · rw [if_pos hc]
        unfold SendInv
        dsimp only
        refine ⟨hA, hB, hC, hD, ?_, hF⟩
        intro m1 t1 hp
        exact absurd hp (by simp)
      · rw [if_neg hc]
        exact ⟨hA, hB, hC, hD, hE, hF⟩
  | reset =>
    simp only [sendStep]
    by_cases hc : s.lastReset + 1000 ≤ s.time
    · rw [if_pos hc]
      unfold SendInv
      dsimp only
      refine ⟨by omega, le_refl 0, hC, hD, ?_, hF⟩
      intro m1 t1 hp
      exact hE m1 t1 hp
    · rw [if_neg hc]
      exact ⟨hA, hB, hC, hD, hE, hF⟩
  | tick n =>
    simp only [sendStep]
    unfold SendInv
    dsimp only
    refine ⟨hA, hB, hC, ?_, ?_, hF⟩
    · intro d t hl
      exact le_trans (hD d t hl) (by omega)
    · intro m1 t1 hp
      obtain ⟨h1, h2⟩ := hE m1 t1 hp
      exact ⟨le_trans h1 (by omega), h2⟩



theorem sendInit_inv : SendInv sendInit := by
  refine ⟨rfl, le_refl 0, ?_, ?_, ?_, List.Pairwise.nil⟩
  · intro p hp
    exact absurd hp (by simp [sendInit])
  · intro d t hl
    exact absurd hl (by simp [sendInit, lookupT, List.find?])
  · intro m1 t1 hp
    exact absurd hp (by simp [sendInit])

theorem runSend_inv (cmds : List SCmd) : SendInv (runSend cmds) := by
  unfold runSend
  have h : ∀ (l : List SCmd) (s : SendSt), SendInv s → SendInv (l.foldl sendStep s) := by
    intro l
    induction l with
    | nil => exact fun s h => h
    | cons c cs ih =>
      intro s h
      exact ih (sendStep s c) (sendStep_inv s c h)
  exact h cmds sendInit sendInit_inv

theorem runSend_balance (cmds : List SCmd) (m : Msg) :
    ownedCount (runSend cmds) m + deliveredCount (runSend cmds) m =
      (runSend cmds).enqLog.count m := by
  unfold runSend
  have h : ∀ (l : List SCmd) (s : SendSt),
      (ownedCount s m + deliveredCount s m = s.enqLog.count m) →
      (ownedCount (l.foldl sendStep s) m + deliveredCount (l.foldl sendStep s) m =
        (l.foldl sendStep s).enqLog.count m) := by
    intro l
    induction l with
    | nil => exact fun s h => h
    | cons c cs ih =>
      intro s h
      exact ih (sendStep s c) (sendStep_balance s c m h)
  exact h cmds sendInit rfl

/-- C4: in every run of the sender machine the quota units acquired since the
last replenishment account exactly for the counter (`counter + acqs = 30`),
every transport invocation consumes one previously acquired unit
(`sends ≤ acqs`), hence at most 30 transport invocations start between two
consecutive replenishments; and any two logged successful deliveries to the
same destination are at least 1000 ms apart.  On the bot's single-threaded
runtime (main.rs builds a `new_current_thread` tokio runtime) the successful
quota probe, the spacing check and the start of the transport call run in one
uninterruptible stretch, which the `acquire` step mirrors. -/
theorem C4_sender_rate_limits :
    ∀ cmds : List SCmd,
      (runSend cmds).counter + (runSend cmds).acqs = RATE_ALL ∧
      (runSend cmds).sends ≤ (runSend cmds).acqs ∧
      (runSend cmds).sends ≤ RATE_ALL ∧
      (runSend cmds).delivLog.Pairwise spacingOK := by
  intro cmds
  obtain ⟨hA, hB, _, _, _, hF⟩ := runSend_inv cmds
  exact ⟨hA, hB, by omega, hF⟩

/-- A run in which a second message to the same destination is dequeued
too early, deferred, and delivered after the spacing window. -/
def spacingCmds : List SCmd :=
  [.enq ⟨10, 0⟩, .enq ⟨10, 1⟩, .recvq, .acquire, .finishOk, .recvq, .acquire, .reenq,
    .tick 1000, .recvq, .acquire, .finishOk]

/-- Witness for C4: the spacing run delivers both messages 1000 ms apart and
the quota accounting holds at its final state. -/
theorem C4_sender_rate_limits_witness :
    (runSend spacingCmds).counter + (runSend spacingCmds).acqs = RATE_ALL ∧
    (runSend spacingCmds).sends ≤ (runSend spacingCmds).acqs ∧
    (runSend spacingCmds).sends ≤ RATE_ALL ∧
    (runSend spacingCmds).delivLog.Pairwise spacingOK :=
  C4_sender_rate_limits spacingCmds

/-- A run whose transport rejects the same notification twice before
accepting it. -/
def retryCmds : List SCmd :=
  [.enq ⟨10, 0⟩, .recvq, .acquire, .finishFail, .recvq, .acquire, .finishFail,
    .recvq, .acquire, .finishOk]

/-- C5: conservation — at every point of every run, each message is either
still owned by the pipeline (queued or held by the consumer) or delivered,
exactly matching the number of times it was enqueued; so a transport failure
(which re-enqueues) never loses a notification and never duplicates one.  In
the concrete `retryCmds` run the transport fails twice and then accepts: the
net effect is exactly one delivery, an empty queue and an idle consumer. -/
theorem C5_failure_retry_no_loss :
    (∀ (cmds : List SCmd) (m : Msg),
      ownedCount (runSend cmds) m + deliveredCount (runSend cmds) m =
        (runSend cmds).enqLog.count m) ∧
    (runSend retryCmds).delivLog.map (fun p => p.1) = [⟨10, 0⟩] ∧
    (runSend retryCmds).queue = [] ∧
    (runSend retryCmds).phase = .idle ∧
    (runSend retryCmds).enqLog = [⟨10, 0⟩] := by
  refine ⟨runSend_balance, by decide, by decide, by decide, by decide⟩

/-- Witness for C5: the conservation equation evaluated on the retry run. -/
theorem C5_failure_retry_no_loss_witness :
    ownedCount (runSend retryCmds) ⟨10, 0⟩ + deliveredCount (runSend retryCmds) ⟨10, 0⟩ =
      (runSend retryCmds).enqLog.count ⟨10, 0⟩ :=
  C5_failure_retry_no_loss.1 retryCmds ⟨10, 0⟩



theorem count_set_balance {α : Type} [DecidableEq α] :
    ∀ (l : List α) (i : Nat) (x a b : α), l.get? i = some x →
      (l.set i a).count b + (if x = b then 1 else 0) = l.count b + (if a = b then 1 else 0)
  | [], i, x, a, b, h => by simp at h
  | y :: l, 0, x, a, b, h => by
    injection h with h
    subst h
    simp only [List.set_cons_zero, List.count_cons, beq_iff_eq]
    by_cases h1 : y = b <;> by_cases h2 : a = b <;> simp [h1, h2] <;> omega
  | y :: l, i + 1, x, a, b, h => by
    have hrec := count_set_balance l i x a b h
    simp only [List.set_cons_succ, List.count_cons, beq_iff_eq]
    by_cases hy : y = b <;> simp [hy] <;> omega

/-- A thread is inside the lock-protected region. -/
def inCrit (ph : SPhase) : Prop := ph = .locked ∨ ∃ b, ph = .checked b

/-- Inductive invariant of the submission lock machine: the ledger count of
the task equals the number of threads that completed with `solved` and never
exceeds one; only the lock holder is inside the critical region; a recorded
check reflects the current ledger; an `alreadySolved` outcome certifies a
nonempty ledger; and outcomes are only the two expected ones. -/
def SubInv (uid : Nat) (tk tn : String) (s : SubSt) : Prop :=
  countSolves s.store uid tk = s.threads.count (.done (.solved tn)) ∧
  countSolves s.store uid tk ≤ 1 ∧
  (∀ i ph, s.threads.get? i = some ph → inCrit ph → s.lockBy = some i) ∧
  (∀ i b, s.threads.get? i = some (.checked b) →
    (b = true ↔ 1 ≤ countSolves s.store uid tk)) ∧
  (∀ i, s.threads.get? i = some (.done .alreadySolved) →
    1 ≤ countSolves s.store uid tk) ∧
  (∀ i r, s.threads.get? i = some (.done r) → r = .alreadySolved ∨ r = .solved tn)



theorem count_set_other {α : Type} [DecidableEq α] (l : List α) (i : Nat) (x a b : α)
    (h : l.get? i = some x) (hx : x ≠ b) (ha : a ≠ b) :
    (l.set i a).count b = l.count b := by
  have hb := count_set_balance l i x a b h
  rw [if_neg hx, if_neg ha] at hb
  omega

theorem count_set_to {α : Type} [DecidableEq α] (l : List α) (i : Nat) (x a : α)
    (h : l.get? i = some x) (hx : x ≠ a) :
    (l.set i a).count a = l.count a + 1 := by
  have hb := count_set_balance l i x a a h
  rw [if_neg hx, if_pos rfl] at hb
  omega

theorem subStep_inv (uid : Nat) (tk tn : String) (s : SubSt) (i : Nat)
    (h : SubInv uid tk tn s) : SubInv uid tk tn (subStep uid tk tn s i) := by
  obtain ⟨hc1, hc2, hlock, hchk, halr, hdic⟩ := h
  simp only [subStep]
  cases hget : s.threads.get? i with
  | none => exact ⟨hc1, hc2, hlock, hchk, halr, hdic⟩
  | some ph =>
    have hlen : i < s.threads.length := by
      rcases List.get?_eq_some.mp hget with ⟨hl, _⟩
      exact hl
    cases ph with
    | ready =>
      cases hlb : s.lockBy with
      | some j0 => exact ⟨hc1, hc2, hlock, hchk, halr, hdic⟩
      | none =>
        unfold SubInv
        dsimp only
        have hnocrit : ∀ j ph', s.threads.get? j = some ph' → ¬ inCrit ph' := by
          intro j ph' hj hcrit
          have hl2 := hlock j ph' hj hcrit
          rw [hlb] at hl2
          exact absurd hl2 (by simp)
        have hcnt := count_set_other s.threads i .ready .locked (.done (.solved tn)) hget
          (by simp) (by simp)
        refine ⟨by omega, hc2, ?_, ?_, ?_, ?_⟩
        · intro j ph' hj _
          by_cases hij : j = i
          · subst hij
            rfl
          · rw [List.get?_set_ne _ _ (fun he => hij he.symm)] at hj
            exact absurd ‹inCrit ph'› (hnocrit j ph' hj)
        · intro j b hj
          by_cases hij : j = i
          · subst hij
            rw [List.get?_set_eq_of_lt _ hlen] at hj
            exact absurd hj (by simp)
          · rw [List.get?_set_ne _ _ (fun he => hij he.symm)] at hj
            exact hchk j b hj
        · intro j hj
          by_cases hij : j = i
          · subst hij
            rw [List.get?_set_eq_of_lt _ hlen] at hj
            exact absurd hj (by simp)
          · rw [List.get?_set_ne _ _ (fun he => hij he.symm)] at hj
            exact halr j hj
        · intro j r hj
          by_cases hij : j = i
          · subst hij
            rw [List.get?_set_eq_of_lt _ hlen] at hj
            exact absurd hj (by simp)
          · rw [List.get?_set_ne _ _ (fun he => hij he.symm)] at hj
            exact hdic j r hj
    | locked =>
      unfold SubInv
      dsimp only
      have hLi := hlock i .locked hget (Or.inl rfl)
      have hcnt := count_set_other s.threads i .locked
        (.checked (is_solved s.store uid tk)) (.done (.solved tn)) hget (by simp) (by simp)
      refine ⟨by omega, hc2, ?_, ?_, ?_, ?_⟩
      · intro j ph' hj hcrit
        by_cases hij : j = i
        · subst hij
          exact hLi
        · rw [List.get?_set_ne _ _ (fun he => hij he.symm)] at hj
          exact hlock j ph' hj hcrit
      · intro j b hj
        by_cases hij : j = i
        · subst hij
          rw [List.get?_set_eq_of_lt _ hlen] at hj
          injection hj with hj
          injection hj with hj
          rw [← hj]
          exact is_solved_iff s.store uid tk
        · rw [List.get?_set_ne _ _ (fun he => hij he.symm)] at hj
          exact hchk j b hj
      · intro j hj
        by_cases hij : j = i
        · subst hij
          rw [List.get?_set_eq_of_lt _ hlen] at hj
          exact absurd hj (by simp)
        · rw [List.get?_set_ne _ _ (fun he => hij he.symm)] at hj
          exact halr j hj
      · intro j r hj
        by_cases hij : j = i
        · subst hij
          rw [List.get?_set_eq_of_lt _ hlen] at hj
          exact absurd hj (by simp)
        · rw [List.get?_set_ne _ _ (fun he => hij he.symm)] at hj
          exact hdic j r hj
    | checked b =>
      have hLi := hlock i (.checked b) hget (Or.inr ⟨b, rfl⟩)
      have honly : ∀ j ph', j ≠ i → s.threads.get? j = some ph' → ¬ inCrit ph' := by
        intro j ph' hij hj hcrit
        have hLj := hlock j ph' hj hcrit
        rw [hLi] at hLj
        injection hLj with hLj
        exact hij hLj.symm
      cases b with
      | true =>
        unfold SubInv
        dsimp only
        have hcnt := count_set_other s.threads i (.checked true)
          (.done .alreadySolved) (.done (.solved tn)) hget (by simp) (by simp)
        refine ⟨by omega, hc2, ?_, ?_, ?_, ?_⟩
        · intro j ph' hj hcrit
          by_cases hij : j = i
          · subst hij
            rw [List.get?_set_eq_of_lt _ hlen] at hj
            injection hj with hj
            rw [← hj] at hcrit
            rcases hcrit with hcrit | ⟨b0, hcrit⟩ <;> exact absurd hcrit (by simp)
          · rw [List.get?_set_ne _ _ (fun he => hij he.symm)] at hj
            exact absurd hcrit (honly j ph' hij hj)
        · intro j b0 hj
          by_cases hij : j = i
          · subst hij
            rw [List.get?_set_eq_of_lt _ hlen] at hj
            exact absurd hj (by simp)
          · rw [List.get?_set_ne _ _ (fun he => hij he.symm)] at hj
            exact hchk j b0 hj
        · intro j hj
          exact (hchk i true hget).mp rfl
        · intro j r hj
          by_cases hij : j = i
          · subst hij
            rw [List.get?_set_eq_of_lt _ hlen] at hj
            injection hj with hj
            injection hj with hj
            exact Or.inl hj.symm
          · rw [List.get?_set_ne _ _ (fun he => hij he.symm)] at hj
            exact hdic j r hj
      | false =>
        unfold SubInv
        dsimp only
        have hzero : countSolves s.store uid tk = 0 := by
          have hiff := hchk i false hget
          by_contra hnz
          have h1 : 1 ≤ countSolves s.store uid tk := Nat.one_le_iff_ne_zero.mpr hnz
          have := hiff.mpr h1
          exact Bool.false_ne_true this
        have hcnt := count_set_to s.threads i (.checked false) (.done (.solved tn)) hget
          (by simp)
        have hnew := countSolves_set_solved s.store uid tk
        refine ⟨by omega, by omega, ?_, ?_, ?_, ?_⟩
        · intro j ph' hj hcrit
          by_cases hij : j = i
          · subst hij
            rw [List.get?_set_eq_of_lt _ hlen] at hj
            injection hj with hj
            rw [← hj] at hcrit
            rcases hcrit with hcrit | ⟨b0, hcrit⟩ <;> exact absurd hcrit (by simp)
          · rw [List.get?_set_ne _ _ (fun he => hij he.symm)] at hj
            exact absurd hcrit (honly j ph' hij hj)
        · intro j b0 hj
          by_cases hij : j = i
          · subst hij
            rw [List.get?_set_eq_of_lt _ hlen] at hj
            exact absurd hj (by simp)
          · rw [List.get?_set_ne _ _ (fun he => hij he.symm)] at hj
            exact absurd (Or.inr ⟨b0, rfl⟩) (honly j (.checked b0) hij hj)
        · intro j hj
          rw [hnew]
          omega
        · intro j r hj
          by_cases hij : j = i
          · subst hij
            rw [List.get?_set_eq_of_lt _ hlen] at hj
            injection hj with hj
            injection hj with hj
            exact Or.inr hj.symm
          · rw [List.get?_set_ne _ _ (fun he => hij he.symm)] at hj
            exact hdic j r hj
    | done r => exact ⟨hc1, hc2, hlock, hchk, halr, hdic⟩



theorem subStep_length (uid : Nat) (tk tn : String) (s : SubSt) (i : Nat) :
    (subStep uid tk tn s i).threads.length = s.threads.length := by
  simp only [subStep]
  cases hget : s.threads.get? i with
  | none => rfl
  | some ph =>
    cases ph with
    | ready =>
      cases s.lockBy with
      | none => simp [List.length_set]
      | some _ => rfl
    | locked => simp [List.length_set]
    | checked b => cases b <;> simp [List.length_set]
    | done r => rfl

theorem runSub_inv (uid : Nat) (tk tn : String) (sched : List Nat) (s : SubSt)
    (h : SubInv uid tk tn s) : SubInv uid tk tn (runSub uid tk tn s sched) := by
  induction sched generalizing s with
  | nil => exact h
  | cons i rest ih => exact ih (subStep uid tk tn s i) (subStep_inv uid tk tn s i h)

theorem runSub_length (uid : Nat) (tk tn : String) (sched : List Nat) (s : SubSt) :
    (runSub uid tk tn s sched).threads.length = s.threads.length := by
  induction sched generalizing s with
  | nil => rfl
  | cons i rest ih =>
    rw [show runSub uid tk tn s (i :: rest) = runSub uid tk tn (subStep uid tk tn s i) rest
      from rfl, ih, subStep_length]

theorem subInit_inv (uid : Nat) (tk tn : String) (st : Store) (n : Nat)
    (h0 : countSolves st uid tk = 0) : SubInv uid tk tn (subInit st n) := by
  unfold SubInv subInit
  dsimp only
  have hmem : ∀ i ph, (List.replicate n SPhase.ready).get? i = some ph → ph = .ready := by
    intro i ph hp
    exact (List.eq_of_mem_replicate (List.get?_mem hp))
  refine ⟨?_, by omega, ?_, ?_, ?_, ?_⟩
  · rw [h0]
    rw [List.count_replicate]
    simp
  · intro i ph hp hcrit
    rw [hmem i ph hp] at hcrit
    rcases hcrit with hcrit | ⟨b0, hcrit⟩ <;> exact absurd hcrit (by simp)
  · intro i b hp
    exact absurd (hmem i _ hp) (by simp)
  · intro i hp
    exact absurd (hmem i _ hp) (by simp)
  · intro i r hp
    exact absurd (hmem i _ hp) (by simp)



/-- C1: starting from a ledger not containing the task, any interleaving of
`n` concurrent submissions of the same resolved task — each stepping through
lock acquisition, the `is_solved` re-check and the conditional `set_solved`
append as separate store round trips — leaves the task in the ledger at most
once at every point; and once all submissions have completed (with `n ≥ 1`),
the ledger holds the task exactly once and exactly one submission reported
`solved`, the concurrent duplicates having been converted to `alreadySolved`. -/
theorem C1_concurrent_submission_exactly_once :
    ∀ (st : Store) (uid : Nat) (tk tn : String) (n : Nat) (sched : List Nat),
      countSolves st uid tk = 0 →
      countSolves (runSub uid tk tn (subInit st n) sched).store uid tk ≤ 1 ∧
      ((∀ ph ∈ (runSub uid tk tn (subInit st n) sched).threads, ∃ r, ph = .done r) →
        1 ≤ n →
        countSolves (runSub uid tk tn (subInit st n) sched).store uid tk = 1 ∧
        (runSub uid tk tn (subInit st n) sched).threads.count
          (.done (.solved tn)) = 1 ∧
        ∀ ph ∈ (runSub uid tk tn (subInit st n) sched).threads,
          ph = .done (.solved tn) ∨ ph = .done .alreadySolved) := by
  intro st uid tk tn n sched h0
  obtain ⟨hc1, hc2, hlock, hchk, halr, hdic⟩ :=
    runSub_inv uid tk tn sched (subInit st n) (subInit_inv uid tk tn st n h0)
  refine ⟨hc2, ?_⟩
  intro hall hn
  have hdone2 : ∀ ph ∈ (runSub uid tk tn (subInit st n) sched).threads,
      ph = .done (.solved tn) ∨ ph = .done .alreadySolved := by
    intro ph hmem
    obtain ⟨r, hr⟩ := hall ph hmem
    subst hr
    obtain ⟨j, hj⟩ := List.get_of_mem hmem
    have hj' : (runSub uid tk tn (subInit st n) sched).threads.get? j.1 = some (.done r) := by
      rw [List.get?_eq_get j.2, hj]
    rcases hdic j.1 r hj' with hra | hrs
    · subst hra
      exact Or.inr rfl
    · subst hrs
      exact Or.inl rfl
  have hone : 1 ≤ countSolves (runSub uid tk tn (subInit st n) sched).store uid tk := by
    by_contra hcz
    have hz : countSolves (runSub uid tk tn (subInit st n) sched).store uid tk = 0 := by
      omega
    have hcnt0 : (runSub uid tk tn (subInit st n) sched).threads.count
        (.done (.solved tn)) = 0 := by
      rw [← hc1]
      exact hz
    have hlenf : (runSub uid tk tn (subInit st n) sched).threads.length = n := by
      rw [runSub_length]
      simp [subInit]
    cases hts : (runSub uid tk tn (subInit st n) sched).threads with
    | nil =>
      rw [hts] at hlenf
      simp at hlenf
      omega
    | cons ph0 rest =>
      have hph0 : (runSub uid tk tn (subInit st n) sched).threads.get? 0 = some ph0 := by
        rw [hts]
        rfl
      have hmem0 : ph0 ∈ (runSub uid tk tn (subInit st n) sched).threads :=
        List.get?_mem hph0
      rcases hdone2 ph0 hmem0 with hs | ha
      · subst hs
        have : 1 ≤ (runSub uid tk tn (subInit st n) sched).threads.count
            (.done (.solved tn)) := List.one_le_count_iff.mpr hmem0
        omega
      · subst ha
        have := halr 0 hph0
        omega
  refine ⟨by omega, by omega, hdone2⟩

/-- Witness for C1: two interleaved submissions of the sample task, one
schedule; the first gets `solved`, the second `alreadySolved`, and the ledger
holds the key once. -/
theorem C1_concurrent_submission_exactly_once_witness :
    countSolves (runSub 5 "task:ab" "Alpha" (subInit sampleStore 2)
        [0, 1, 0, 1, 0, 1, 1, 1]).store 5 "task:ab" = 1 ∧
    (runSub 5 "task:ab" "Alpha" (subInit sampleStore 2)
        [0, 1, 0, 1, 0, 1, 1, 1]).threads.count (.done (.solved "Alpha")) = 1 := by
  have hall : ∀ ph ∈ (runSub 5 "task:ab" "Alpha" (subInit sampleStore 2)
      [0, 1, 0, 1, 0, 1, 1, 1]).threads, ∃ r, ph = SPhase.done r := by
    have hts : (runSub 5 "task:ab" "Alpha" (subInit sampleStore 2)
        [0, 1, 0, 1, 0, 1, 1, 1]).threads =
        [.done (.solved "Alpha"), .done .alreadySolved] := by decide
    intro ph hmem
    rw [hts] at hmem
    simp only [List.mem_cons, List.not_mem_nil, or_false] at hmem
    rcases hmem with h | h
    · exact ⟨.solved "Alpha", h⟩
    · exact ⟨.alreadySolved, h⟩
  have hmain := (C1_concurrent_submission_exactly_once sampleStore 5 "task:ab" "Alpha" 2
    [0, 1, 0, 1, 0, 1, 1, 1] (by decide)).2 hall (by decide)
  exact ⟨hmain.1, hmain.2.1⟩


end VBot
